import Mathlib

/-!
# Verification of cri-archive-lib (CPK reader core)

A shallow embedding, in Lean 4, of the core algorithms of the
`cri-archive-lib` Rust crate: the UTF-table XOR decryptor, the P5R per-file
decryptor, the CRILAYLA decompressor with its end-to-start bit reader, the
table container / schema parsers, the CPK reader orchestration and the slab
free-list allocator.  Byte buffers are modelled as `List Nat` whose elements
are byte values (`u8` loads always produce values `< 256`); machine integers
are modelled as `Nat` with explicit `% 2 ^ w` where wrap-around matters.
Raw-pointer reads outside the buffer under consideration (undefined behaviour
in the source) are modelled as reading `0`; out-of-bounds writes are modelled
as no-ops.  Each definition carries a reference to the Rust item it embeds.
-/

namespace CriArchive

/-! ## Byte-list micro-API

`getB l j` models an indexed `u8` load from buffer `l`, `setB` the
corresponding store.  `getI`/`setI` are the signed-index variants used for
raw-pointer arithmetic that can move below the start of a buffer.  -/

def getB (l : List Nat) (j : Nat) : Nat := l.getD j 0

def setB (l : List Nat) (j v : Nat) : List Nat := l.set j v

def getI (l : List Nat) (j : Int) : Nat := if 0 ≤ j then getB l j.toNat else 0

def setI (l : List Nat) (j : Int) (v : Nat) : List Nat :=
  if 0 ≤ j then setB l j.toNat v else l

@[simp] theorem length_setB (l : List Nat) (j v : Nat) :
    (setB l j v).length = l.length := by
  simp [setB]

@[simp] theorem length_setI (l : List Nat) (j : Int) (v : Nat) :
    (setI l j v).length = l.length := by
  unfold setI
  split <;> simp

theorem getB_setB_eq (l : List Nat) (j v : Nat) (h : j < l.length) :
    getB (setB l j v) j = v := by
  simp [getB, setB, List.getD, List.getElem?_set_self', h]

theorem getB_setB_ne (l : List Nat) (i j v : Nat) (h : i ≠ j) :
    getB (setB l i v) j = getB l j := by
  simp [getB, setB, List.getD, List.getElem?_set_ne h]

theorem getB_eq_zero_of_le (l : List Nat) (j : Nat) (h : l.length ≤ j) :
    getB l j = 0 := by
  simp [getB, List.getD, List.getElem?_eq_none h]

/-! ## Fixed tables and integer loads

`bit_mask` embeds the `BIT_MASK` array of `cpk/compress/layla.rs`
(`BIT_MASK[n] = 2^n - 1` for `n ≤ 15`; larger indices are out-of-bounds
`get_unchecked` reads, modelled as 0).  The multi-byte loads embed the
`utils::endianness` helpers; that module is not part of the provided sources,
so they are modelled from the spec: table fields are big-endian on disk,
the CRILAYLA header is little-endian, and `NativeEndian` is the host byte
order, which is little-endian on the supported x86-64/aarch64 targets
(spec sections 4.5 and 9). -/

def BIT_MASK : List Nat :=
  [0x0000, 0x0001, 0x0003, 0x0007, 0x000f, 0x001f, 0x003f, 0x007f,
   0x00ff, 0x01ff, 0x03ff, 0x07ff, 0x0fff, 0x1fff, 0x3fff, 0x7fff]

def bit_mask (n : Nat) : Nat := BIT_MASK.getD n 0

/-- Modelled from the spec: `utils::endianness::LittleEndian::get_u32`
(the `utils/endianness.rs` module is referenced by `lib.rs` but absent from
the provided sources). -/
def leU32At (l : List Nat) (j : Nat) : Nat :=
  getB l j + 0x100 * getB l (j+1) + 0x10000 * getB l (j+2) + 0x1000000 * getB l (j+3)

/-- Modelled from the spec: `utils::endianness::LittleEndian::get_u64`. -/
def leU64At (l : List Nat) (j : Nat) : Nat :=
  leU32At l j + 0x100000000 * leU32At l (j+4)

/-- Modelled from the spec: `utils::endianness::BigEndian::get_u16`. -/
def beU16At (l : List Nat) (j : Nat) : Nat :=
  0x100 * getB l j + getB l (j+1)

/-- Modelled from the spec: `utils::endianness::BigEndian::get_u32`. -/
def beU32At (l : List Nat) (j : Nat) : Nat :=
  0x1000000 * getB l j + 0x10000 * getB l (j+1) + 0x100 * getB l (j+2) + getB l (j+3)

/-- Modelled from the spec: `utils::endianness::BigEndian::get_u64`. -/
def beU64At (l : List Nat) (j : Nat) : Nat :=
  0x100000000 * beU32At l j + beU32At l (j+4)

/-! ## Table decryptor (`cpk/encrypt/table.rs`)

The keystream state `xor` is an `i8` in the source; wrapping signed 8-bit
multiplication acts on the byte representation exactly as multiplication
mod 256, so the state is modelled as a `Nat < 256` and each
`wrapping_mul` as `(_ * _) % 256`.  The signed constants of the source map
to their byte representations: `-71 ↦ 185`, `-79 ↦ 177`, `-123 ↦ 133`,
`-23 ↦ 233`. -/

/-- `TableDecryptor::decrypt_in_place_u8` (table.rs lines 162-167):
`for i in start..input.len() { input[i] ^= xor as u8; xor = xor.wrapping_mul(21); }` -/
def decrypt_in_place_u8 (input : List Nat) (i : Nat) (xor : Nat) : List Nat :=
  if h : i < input.length then
    decrypt_in_place_u8 (setB input i (getB input i ^^^ xor)) (i + 1) ((xor * 21) % 256)
  else input
termination_by input.length - i
decreasing_by simp only [length_setB]; omega

/-- One iteration of the loop body of `TableDecryptor::decrypt_in_place_u64`
(table.rs lines 145-157): the 8-byte word at byte offset `b` is XORed with
the u64 built from `xor`, `xor*21`, `xor*(-71)`, `xor*45`, `xor*(-79)`,
`xor*(-123)`, `xor*(-23)`, `xor*29` in its successive (little-endian) byte
lanes; modelled byte-by-byte since XOR acts lane-wise. -/
def xor_u64_block (l : List Nat) (b xor : Nat) : List Nat :=
  let l := setB l b       (getB l b       ^^^ (xor * 1)   % 256)
  let l := setB l (b + 1) (getB l (b + 1) ^^^ (xor * 21)  % 256)
  let l := setB l (b + 2) (getB l (b + 2) ^^^ (xor * 185) % 256)
  let l := setB l (b + 3) (getB l (b + 3) ^^^ (xor * 45)  % 256)
  let l := setB l (b + 4) (getB l (b + 4) ^^^ (xor * 177) % 256)
  let l := setB l (b + 5) (getB l (b + 5) ^^^ (xor * 133) % 256)
  let l := setB l (b + 6) (getB l (b + 6) ^^^ (xor * 233) % 256)
  setB l (b + 7) (getB l (b + 7) ^^^ (xor * 29) % 256)

/-- `TableDecryptor::decrypt_in_place_u64` (table.rs lines 144-159): XOR
whole 8-byte words for `i in start..(len >> 3)`, advancing the seed by
`wrapping_mul(97)` per word, then finish the tail bytes from
`(len >> 3) << 3` with `decrypt_in_place_u8`. -/
def decrypt_in_place_u64 (input : List Nat) (i xor : Nat) : List Nat :=
  if h : i < input.length >>> 3 then
    decrypt_in_place_u64 (xor_u64_block input (8 * i) xor) (i + 1) ((xor * 97) % 256)
  else decrypt_in_place_u8 input ((input.length >>> 3) <<< 3) xor

termination_by input.length >>> 3 - i
decreasing_by simp only [xor_u64_block, length_setB]; omega

/-- `TableDecryptor::decrypt_utf_in_place` (table.rs lines 51-63): seed 95.
On the default x86-64 build (no avx2/sse3 target features) the `cfg!`
dispatch selects the scalar `decrypt_in_place_u64(input, 0, 95)` path; the
SIMD variants are specified (spec section 4.5) to produce identical output. -/
def decrypt_utf_in_place (input : List Nat) : List Nat :=
  decrypt_in_place_u64 input 0 95

/-- `TableDecryptor::decrypt_utf` (table.rs lines 44-49): allocates
`result = Vec::with_capacity(input.len())` (so `result.len() == 0`), copies
`result.len()` bytes from `input` into it, and decrypts `result` in place. -/
def decrypt_utf (input : List Nat) : List Nat :=
  decrypt_utf_in_place (input.take 0)

/-- `TableDecryptor::is_encrypted` (table.rs lines 30-37): the first four
bytes, read in native (little-endian) order, equal `0xF5F39E1F`. -/
def table_is_encrypted (bytes : List Nat) : Bool :=
  leU32At bytes 0 == 0xF5F39E1F

/-! ### Keystream characterization -/

theorem length_decrypt_in_place_u8 (input : List Nat) (i xor : Nat) :
    (decrypt_in_place_u8 input i xor).length = input.length := by
  induction input, i, xor using decrypt_in_place_u8.induct with
  | case1 input i xor h ih =>
    rw [decrypt_in_place_u8, dif_pos h, ih, length_setB]
  | case2 input i xor h =>
    rw [decrypt_in_place_u8, dif_neg h]

theorem mul_mod_cong (x a b n : Nat) (h : a % n = b % n) : x * a % n = x * b % n := by
  rw [Nat.mul_mod, h, ← Nat.mul_mod]

theorem getB_decrypt_in_place_u8_lt (input : List Nat) (i xor : Nat) :
    ∀ j, j < i → getB (decrypt_in_place_u8 input i xor) j = getB input j := by
  induction input, i, xor using decrypt_in_place_u8.induct with
  | case1 input i xor h ih =>
    intro j hj
    rw [decrypt_in_place_u8, dif_pos h, ih j (by omega), getB_setB_ne _ _ _ _ (by omega)]
  | case2 input i xor h =>
    intro j _
    rw [decrypt_in_place_u8, dif_neg h]

theorem getB_decrypt_in_place_u8 (input : List Nat) (i xor : Nat) :
    ∀ j, xor < 256 → i ≤ j → j < input.length →
      getB (decrypt_in_place_u8 input i xor) j =
        getB input j ^^^ xor * 21 ^ (j - i) % 256 := by
  induction input, i, xor using decrypt_in_place_u8.induct with
  | case1 input i xor h ih =>
    intro j hx hij hj
    rw [decrypt_in_place_u8, dif_pos h]
    rcases Nat.eq_or_lt_of_le hij with heq | hlt
    · subst heq
      rw [getB_decrypt_in_place_u8_lt _ _ _ i (by omega),
        getB_setB_eq _ _ _ h, Nat.sub_self, pow_zero, Nat.mul_one, Nat.mod_eq_of_lt hx]
    · rw [ih j (Nat.mod_lt _ (by norm_num)) (by omega) (by simpa using hj),
        getB_setB_ne _ _ _ _ (by omega), Nat.mod_mul_mod]
      have harith : xor * 21 * 21 ^ (j - (i + 1)) = xor * 21 ^ (j - i) := by
        have hsub : j - i = j - (i + 1) + 1 := by omega
        rw [hsub, pow_succ]
        ring
      rw [harith]
  | case2 input i xor h =>
    intro j _ hij hj
    omega

theorem length_xor_u64_block (l : List Nat) (b xor : Nat) :
    (xor_u64_block l b xor).length = l.length := by
  simp [xor_u64_block]

theorem getB_xor_u64_block (l : List Nat) (b xor : Nat) (j : Nat) (hj : j < l.length) :
    getB (xor_u64_block l b xor) j =
      if b ≤ j ∧ j < b + 8 then getB l j ^^^ xor * 21 ^ (j - b) % 256 else getB l j := by
  have hc : j < b ∨ j = b ∨ j = b + 1 ∨ j = b + 2 ∨ j = b + 3 ∨ j = b + 4 ∨ j = b + 5 ∨
      j = b + 6 ∨ j = b + 7 ∨ b + 8 ≤ j := by omega
  simp only [xor_u64_block]
  rcases hc with hc | hc | hc | hc | hc | hc | hc | hc | hc | hc
  · rw [if_neg (by omega)]
    rw [getB_setB_ne _ _ _ _ (by omega), getB_setB_ne _ _ _ _ (by omega),
      getB_setB_ne _ _ _ _ (by omega), getB_setB_ne _ _ _ _ (by omega),
      getB_setB_ne _ _ _ _ (by omega), getB_setB_ne _ _ _ _ (by omega),
      getB_setB_ne _ _ _ _ (by omega), getB_setB_ne _ _ _ _ (by omega)]
  · subst hc
    rw [if_pos (by omega)]
    rw [getB_setB_ne _ _ _ _ (by omega), getB_setB_ne _ _ _ _ (by omega),
      getB_setB_ne _ _ _ _ (by omega), getB_setB_ne _ _ _ _ (by omega),
      getB_setB_ne _ _ _ _ (by omega), getB_setB_ne _ _ _ _ (by omega),
      getB_setB_ne _ _ _ _ (by omega),
      getB_setB_eq _ _ _ (by simpa using hj), Nat.sub_self]
    exact congrArg _ (mul_mod_cong _ _ _ _ (by norm_num))
  · subst hc
    rw [if_pos (by omega)]
    rw [getB_setB_ne _ _ _ _ (by omega), getB_setB_ne _ _ _ _ (by omega),
      getB_setB_ne _ _ _ _ (by omega), getB_setB_ne _ _ _ _ (by omega),
      getB_setB_ne _ _ _ _ (by omega), getB_setB_ne _ _ _ _ (by omega),
      getB_setB_eq _ _ _ (by simpa using hj),
      getB_setB_ne _ _ _ _ (by omega), Nat.add_sub_cancel_left]
    exact congrArg _ (mul_mod_cong _ _ _ _ (by norm_num))
  · subst hc
    rw [if_pos (by omega)]
    rw [getB_setB_ne _ _ _ _ (by omega), getB_setB_ne _ _ _ _ (by omega),
      getB_setB_ne _ _ _ _ (by omega), getB_setB_ne _ _ _ _ (by omega),
      getB_setB_ne _ _ _ _ (by omega),
      getB_setB_eq _ _ _ (by simpa using hj),
      getB_setB_ne _ _ _ _ (by omega), getB_setB_ne _ _ _ _ (by omega),
      Nat.add_sub_cancel_left]
    exact congrArg _ (mul_mod_cong _ _ _ _ (by norm_num))
  · subst hc
    rw [if_pos (by omega)]
    rw [getB_setB_ne _ _ _ _ (by omega), getB_setB_ne _ _ _ _ (by omega),
      getB_setB_ne _ _ _ _ (by omega), getB_setB_ne _ _ _ _ (by omega),
      getB_setB_eq _ _ _ (by simpa using hj),
      getB_setB_ne _ _ _ _ (by omega), getB_setB_ne _ _ _ _ (by omega),
      getB_setB_ne _ _ _ _ (by omega), Nat.add_sub_cancel_left]
    exact congrArg _ (mul_mod_cong _ _ _ _ (by norm_num))
  · subst hc
    rw [if_pos (by omega)]
    rw [getB_setB_ne _ _ _ _ (by omega), getB_setB_ne _ _ _ _ (by omega),
      getB_setB_ne _ _ _ _ (by omega),
      getB_setB_eq _ _ _ (by simpa using hj),
      getB_setB_ne _ _ _ _ (by omega), getB_setB_ne _ _ _ _ (by omega),
      getB_setB_ne _ _ _ _ (by omega), getB_setB_ne _ _ _ _ (by omega),
      Nat.add_sub_cancel_left]
    exact congrArg _ (mul_mod_cong _ _ _ _ (by norm_num))
  · subst hc
    rw [if_pos (by omega)]
    rw [getB_setB_ne _ _ _ _ (by omega), getB_setB_ne _ _ _ _ (by omega),
      getB_setB_eq _ _ _ (by simpa using hj),
      getB_setB_ne _ _ _ _ (by omega), getB_setB_ne _ _ _ _ (by omega),
      getB_setB_ne _ _ _ _ (by omega), getB_setB_ne _ _ _ _ (by omega),
      getB_setB_ne _ _ _ _ (by omega), Nat.add_sub_cancel_left]
    exact congrArg _ (mul_mod_cong _ _ _ _ (by norm_num))
  · subst hc
    rw [if_pos (by omega)]
    rw [getB_setB_ne _ _ _ _ (by omega),
      getB_setB_eq _ _ _ (by simpa using hj),
      getB_setB_ne _ _ _ _ (by omega), getB_setB_ne _ _ _ _ (by omega),
      getB_setB_ne _ _ _ _ (by omega), getB_setB_ne _ _ _ _ (by omega),
      getB_setB_ne _ _ _ _ (by omega), getB_setB_ne _ _ _ _ (by omega),
      Nat.add_sub_cancel_left]
    exact congrArg _ (mul_mod_cong _ _ _ _ (by norm_num))
  · subst hc
    rw [if_pos (by omega)]
    rw [getB_setB_eq _ _ _ (by simpa using hj),
      getB_setB_ne _ _ _ _ (by omega), getB_setB_ne _ _ _ _ (by omega),
      getB_setB_ne _ _ _ _ (by omega), getB_setB_ne _ _ _ _ (by omega),
      getB_setB_ne _ _ _ _ (by omega), getB_setB_ne _ _ _ _ (by omega),
      getB_setB_ne _ _ _ _ (by omega), Nat.add_sub_cancel_left]
    exact congrArg _ (mul_mod_cong _ _ _ _ (by norm_num))
  · rw [if_neg (by omega)]
    rw [getB_setB_ne _ _ _ _ (by omega), getB_setB_ne _ _ _ _ (by omega),
      getB_setB_ne _ _ _ _ (by omega), getB_setB_ne _ _ _ _ (by omega),
      getB_setB_ne _ _ _ _ (by omega), getB_setB_ne _ _ _ _ (by omega),
      getB_setB_ne _ _ _ _ (by omega), getB_setB_ne _ _ _ _ (by omega)]

theorem length_decrypt_in_place_u64 (input : List Nat) (i xor : Nat) :
    (decrypt_in_place_u64 input i xor).length = input.length := by
  induction input, i, xor using decrypt_in_place_u64.induct with
  | case1 input i xor h ih =>
    rw [decrypt_in_place_u64, dif_pos h, ih, length_xor_u64_block]
  | case2 input i xor h =>
    rw [decrypt_in_place_u64, dif_neg h, length_decrypt_in_place_u8]

theorem eight_mul_shiftRight_le (n : Nat) : 8 * (n >>> 3) ≤ n := by
  rw [Nat.shiftRight_eq_div_pow]
  omega

theorem shiftRight_shiftLeft_three (n : Nat) : (n >>> 3) <<< 3 = 8 * (n >>> 3) := by
  rw [Nat.shiftLeft_eq]
  ring

theorem pow21_mod_step (x k : Nat) : x * 97 * 21 ^ k % 256 = x * 21 ^ (k + 8) % 256 := by
  have h1 : x * 97 * 21 ^ k = x * (97 * 21 ^ k) := by ring
  have h2 : x * 21 ^ (k + 8) = x * (21 ^ 8 * 21 ^ k) := by rw [pow_add]; ring
  rw [h1, h2]
  refine mul_mod_cong x _ _ 256 ?_
  rw [Nat.mul_mod, Nat.mul_mod (21 ^ 8)]
  norm_num

theorem getB_decrypt_in_place_u64_lt (input : List Nat) (i xor : Nat) :
    ∀ j, i ≤ input.length >>> 3 → j < 8 * i →
      getB (decrypt_in_place_u64 input i xor) j = getB input j := by
  induction input, i, xor using decrypt_in_place_u64.induct with
  | case1 input i xor h ih =>
    intro j hi hj
    have hjlen : j < input.length := by
      have := eight_mul_shiftRight_le input.length
      omega
    rw [decrypt_in_place_u64, dif_pos h,
      ih j (by rw [length_xor_u64_block]; omega) (by omega),
      getB_xor_u64_block _ _ _ _ hjlen, if_neg (by omega)]
  | case2 input i xor h =>
    intro j hi hj
    have hieq : i = input.length >>> 3 := by omega
    rw [decrypt_in_place_u64, dif_neg h,
      getB_decrypt_in_place_u8_lt _ _ _ j
        (by rw [shiftRight_shiftLeft_three]; omega)]

theorem getB_decrypt_in_place_u64 (input : List Nat) (i xor : Nat) :
    ∀ j, xor < 256 → i ≤ input.length >>> 3 → 8 * i ≤ j → j < input.length →
      getB (decrypt_in_place_u64 input i xor) j =
        getB input j ^^^ xor * 21 ^ (j - 8 * i) % 256 := by
  induction input, i, xor using decrypt_in_place_u64.induct with
  | case1 input i xor h ih =>
    intro j hx hi hij hj
    rw [decrypt_in_place_u64, dif_pos h]
    by_cases hjb : j < 8 * (i + 1)
    · rw [getB_decrypt_in_place_u64_lt _ _ _ j (by rw [length_xor_u64_block]; omega) hjb,
        getB_xor_u64_block _ _ _ _ hj, if_pos (by omega)]
    · rw [ih j (Nat.mod_lt _ (by norm_num)) (by rw [length_xor_u64_block]; omega)
        (by omega) (by rw [length_xor_u64_block]; exact hj),
        getB_xor_u64_block _ _ _ _ hj, if_neg (by omega), Nat.mod_mul_mod,
        pow21_mod_step]
      have hk : j - 8 * (i + 1) + 8 = j - 8 * i := by omega
      rw [hk]
  | case2 input i xor h =>
    intro j hx hi hij hj
    have hieq : i = input.length >>> 3 := by omega
    rw [decrypt_in_place_u64, dif_neg h,
      getB_decrypt_in_place_u8 _ _ _ j hx (by rw [shiftRight_shiftLeft_three]; omega) hj,
      shiftRight_shiftLeft_three, hieq]

theorem length_decrypt_utf_in_place (input : List Nat) :
    (decrypt_utf_in_place input).length = input.length :=
  length_decrypt_in_place_u64 input 0 95

/-- The table decryptor entry point XORs byte `i` with `95 · 21^i mod 256`. -/
theorem getB_decrypt_utf_in_place (input : List Nat) (i : Nat) (h : i < input.length) :
    getB (decrypt_utf_in_place input) i = getB input i ^^^ 95 * 21 ^ i % 256 := by
  unfold decrypt_utf_in_place
  have := getB_decrypt_in_place_u64 input 0 95 i (by norm_num) (by omega) (by omega) h
  simpa using this

/-- Whole-table decryption is self-inverse (supports the spec's involution
property for the in-place decryptor actually used by the table reader). -/
theorem decrypt_utf_in_place_involutive (input : List Nat) :
    decrypt_utf_in_place (decrypt_utf_in_place input) = input := by
  apply List.ext_getElem
  · rw [length_decrypt_utf_in_place, length_decrypt_utf_in_place]
  · intro j h1 h2
    have hlen : j < (decrypt_utf_in_place input).length := by
      rw [length_decrypt_utf_in_place]; exact h2
    have e1 : getB (decrypt_utf_in_place (decrypt_utf_in_place input)) j = getB input j := by
      rw [getB_decrypt_utf_in_place _ _ hlen, getB_decrypt_utf_in_place _ _ h2,
        Nat.xor_assoc, Nat.xor_self, Nat.xor_zero]
    rw [getB, getB, List.getD_eq_getElem _ 0 h1, List.getD_eq_getElem _ 0 h2] at e1
    exact e1

theorem decrypt_utf_eq_nil (input : List Nat) : decrypt_utf input = [] := by
  simp only [decrypt_utf, List.take_zero, decrypt_utf_in_place]
  rw [decrypt_in_place_u64, dif_neg (by decide), decrypt_in_place_u8, dif_neg (by decide)]

/-- The 0x821-byte scenario input of the spec: byte `i` is `i mod 256`. -/
def rampC2 : List Nat := (List.range 0x821).map (fun i => i % 256)

/-- Claim C7: for every input and every index `i` within it, byte `i` of the
table decryptor's output is `input[i] XOR k_i` with `k_i = 95 · 21^i` taken
mod 256 (the byte image of the wrapping signed 8-bit product). -/
theorem table_decryptor_keystream (input : List Nat) (i : Nat) (h : i < input.length) :
    getB (decrypt_utf_in_place input) i = getB input i ^^^ 95 * 21 ^ i % 256 :=
  getB_decrypt_utf_in_place input i h

theorem table_decryptor_keystream_witness :
    2 < ([3, 141, 59, 7] : List Nat).length ∧
      getB (decrypt_utf_in_place [3, 141, 59, 7]) 2 =
        getB [3, 141, 59, 7] 2 ^^^ 95 * 21 ^ 2 % 256 :=
  ⟨by norm_num, table_decryptor_keystream [3, 141, 59, 7] 2 (by norm_num)⟩

/-- Claim C2, code bug: `decrypt_utf` copies `result.len() = 0` bytes out of
its freshly reserved vector, so it returns the empty byte sequence for every
input; applying it twice to the 0x821-byte ramp yields `[]`, not the input,
even though the in-place decryptor it wraps is a genuine involution
(`decrypt_utf_in_place_involutive`). -/
theorem decrypt_utf_drops_payload :
    decrypt_utf rampC2 = [] ∧ decrypt_utf (decrypt_utf rampC2) ≠ rampC2 := by
  refine ⟨decrypt_utf_eq_nil _, ?_⟩
  rw [decrypt_utf_eq_nil]
  intro hcontra
  have hlen : rampC2.length = 0x821 := by simp [rampC2]
  rw [← hcontra] at hlen
  simp at hlen

/-! ## CRILAYLA bit reader (`cpk/compress/layla.rs`)

`LaylaDecompressorCursor` holds a raw byte pointer `cdata` and a count
`bits_left` of unconsumed low bits of the current byte.  The pointer is
modelled as a signed index into the byte stream; a `u8` load always yields a
value `< 256`, and loads below the stream (undefined behaviour in the
source) are modelled as reading 0.  `u8` shifts that overflow the byte are
truncated with `% 256`, matching Rust's `u8` semantics. -/

structure Cursor where
  cdata : Int
  bits_left : Nat
deriving DecidableEq, Repr

/-- A `u8` load through the cursor's raw pointer. -/
def getU8 (s : List Nat) (j : Int) : Nat := getI s j % 256

/-- `LaylaDecompressorCursor::read_1` (layla.rs lines 92-101). -/
def read_1 (s : List Nat) (c : Cursor) : Bool × Cursor :=
  if c.bits_left ≠ 0 then
    let c' : Cursor := ⟨c.cdata, c.bits_left - 1⟩
    (((getU8 s c'.cdata >>> c'.bits_left) &&& 1) ≠ 0, c')
  else
    let c' : Cursor := ⟨c.cdata - 1, 7⟩
    (((getU8 s c'.cdata >>> c'.bits_left) &&& 1) ≠ 0, c')

/-- `LaylaDecompressorCursor::read_13` (layla.rs lines 103-130), the
unrolled three-read version. -/
def read_13 (s : List Nat) (c : Cursor) : Nat × Cursor :=
  let c := if c.bits_left = 0 then Cursor.mk (c.cdata - 1) 8 else c
  let bits := 13 - c.bits_left
  let res := getU8 s c.cdata &&& bit_mask c.bits_left
  let c := Cursor.mk (c.cdata - 1) 8
  let bit_round := min bits c.bits_left
  let res := (res <<< bit_round) |||
    ((getU8 s c.cdata >>> (c.bits_left - bit_round)) &&& bit_mask bit_round)
  let bits := bits - bit_round
  if bits = 0 then (res, Cursor.mk c.cdata (c.bits_left - bit_round))
  else
    let c := Cursor.mk (c.cdata - 1) 8
    let res := (res <<< bits) |||
      ((getU8 s c.cdata >>> (c.bits_left - bits)) &&& bit_mask bits)
    (res, Cursor.mk c.cdata (c.bits_left - bits))

/-- `LaylaDecompressorCursor::read_8` (layla.rs lines 156-165).  The masks
are `as u8` casts and the left shift is a `u8` shift, hence the `% 256`. -/
def read_8 (s : List Nat) (c : Cursor) : Nat × Cursor :=
  let c := Cursor.mk (c.cdata - 1) c.bits_left
  if c.bits_left ≠ 0 then
    let extra_bit := 8 - c.bits_left
    ((((getU8 s (c.cdata + 1) &&& bit_mask c.bits_left % 256) <<< extra_bit) % 256) |||
      ((getU8 s c.cdata >>> (8 - extra_bit)) &&& bit_mask extra_bit % 256), c)
  else (getU8 s c.cdata, c)

/-- `LaylaDecompressorCursor::read_2` (layla.rs lines 169-184). -/
def read_2 (s : List Nat) (c : Cursor) : Nat × Cursor :=
  let new_byte := c.bits_left = 0
  if 2 ≤ c.bits_left ∨ new_byte then
    let bl := if new_byte then 6 else c.bits_left - 2
    let cd := c.cdata - (if new_byte then 1 else 0)
    ((getU8 s cd >>> bl) &&& 3, Cursor.mk cd bl)
  else
    (((getU8 s c.cdata &&& 1) <<< 1) ||| (getU8 s (c.cdata - 1) >>> 7),
      Cursor.mk (c.cdata - 1) 7)

/-- The two unrolled loop iterations of `read_max_8`, after the cursor has
been normalized to `bits_left ≠ 0` (`res` is a `u8`, hence the `% 256` on
its shift; the masks are `as u8` casts).  The second iteration starts from
`bits_left = 8` on the next lower byte, exactly as in the source. -/
def read_max_8_core (s : List Nat) (cd : Int) (bl : Nat) (bits0 : Nat) : Nat × Cursor :=
  let bit_round := min bits0 bl
  let res := (getU8 s cd >>> (bl - bit_round)) &&& bit_mask bit_round % 256
  let bits := bits0 - bit_round
  if bits = 0 then (res, Cursor.mk cd (bl - bit_round))
  else
    let bit_round2 := min bits 8
    let res := ((res <<< bit_round2) % 256) |||
      ((getU8 s (cd - 1) >>> (8 - bit_round2)) &&& bit_mask bit_round2 % 256)
    let bits2 := bits - bit_round2
    if bits2 = 0 then (res, Cursor.mk (cd - 1) (8 - bit_round2))
    else (res, Cursor.mk (cd - 1 - 1) 8)

/-- `LaylaDecompressorCursor::read_max_8` (layla.rs lines 186-203): when
`bits_left == 0` move to the next lower byte with `bits_left = 8`, then run
the two unrolled read rounds. -/
def read_max_8 (s : List Nat) (c : Cursor) (bits0 : Nat) : Nat × Cursor :=
  if c.bits_left = 0 then read_max_8_core s (c.cdata - 1) 8 bits0
  else read_max_8_core s c.cdata c.bits_left bits0

theorem getU8_lt_256 (s : List Nat) (j : Int) : getU8 s j < 256 :=
  Nat.mod_lt _ (by norm_num)

theorem read_8_cdata (s : List Nat) (c : Cursor) :
    (read_8 s c).2.cdata = c.cdata - 1 := by
  simp only [read_8]
  split <;> rfl

theorem read_8_lt_256 (s : List Nat) (c : Cursor) : (read_8 s c).1 < 256 := by
  simp only [read_8]
  split
  · refine Nat.or_lt_two_pow (n := 8) (Nat.mod_lt _ (by norm_num)) ?_
    calc getU8 s (c.cdata - 1) >>> (8 - (8 - c.bits_left)) &&& bit_mask (8 - c.bits_left) % 256
        ≤ bit_mask (8 - c.bits_left) % 256 := Nat.and_le_right
      _ < 2 ^ 8 := Nat.lt_of_lt_of_le (Nat.mod_lt _ (by norm_num)) (by norm_num)
  · exact getU8_lt_256 s _

theorem getU8_neg (s : List Nat) (j : Int) (h : j < 0) : getU8 s j = 0 := by
  rw [getU8, getI, if_neg (by omega)]

theorem read_8_eq_255_nonneg (s : List Nat) (c : Cursor)
    (h : (read_8 s c).1 = 255) : 0 ≤ c.cdata := by
  by_contra hneg
  push_neg at hneg
  rw [read_8] at h
  split at h
  · simp only [getU8_neg s (c.cdata - 1 + 1) (by omega),
      getU8_neg s (c.cdata - 1) (by omega)] at h
    norm_num at h
  · rw [getU8_neg s (c.cdata - 1) (by omega)] at h
    norm_num at h

/-- The continuation-chunk loop of the copy-length decoder
(layla.rs lines 250-254): `loop { let t = cursor.read_8(); length += t;
if t != u8::MAX { break } }`, returning the total added to `length`. -/
def read_chunks (s : List Nat) (c : Cursor) : Nat × Cursor :=
  if ht : (read_8 s c).1 = 255 then
    let rest := read_chunks s (read_8 s c).2
    ((read_8 s c).1 + rest.1, rest.2)
  else read_8 s c
termination_by (c.cdata + 1).toNat
decreasing_by
  have h0 : 0 ≤ c.cdata := read_8_eq_255_nonneg s c ht
  have h1 := read_8_cdata s c
  omega

/-- The copy-length decoder of `LaylaDecompressorImpl::decompress`
(layla.rs lines 239-257): `length` starts at `MIN_COPY_LENGTH = 3`, then
the unrolled Fibonacci tiers are added while each tier reads its maximum
(`== 3`, `== 7`, `== 0x1f`). -/
def read_copy_len (s : List Nat) (c : Cursor) : Nat × Cursor :=
  match read_2 s c with
  | (t1, c) =>
    let length := 3 + t1
    if t1 = 3 then
      match read_max_8 s c 3 with
      | (t2, c) =>
        let length := length + t2
        if t2 = 7 then
          match read_max_8 s c 5 with
          | (t3, c) =>
            let length := length + t3
            if t3 = 0x1f then
              match read_chunks s c with
              | (t4, c) => (length + t4, c)
            else (length, c)
        else (length, c)
    else (length, c)

/-- The copy command decode of the main loop (layla.rs lines 238-257):
a 13-bit raw offset field plus `MIN_COPY_LENGTH`, then the copy length. -/
def read_copy_cmd (s : List Nat) (c : Cursor) : (Nat × Nat) × Cursor :=
  match read_13 s c with
  | (raw, c) =>
    match read_copy_len s c with
    | (len, c) => ((raw + 3, len), c)

/-! ### Spec-side copy-length decoder

These definitions follow the property text word for word: each tier stops
when its value is below the tier maximum (`< 3`, `< 7`, `< 31`), and 8-bit
chunks are accumulated until one reads a value `< 255`. -/

def spec_chunk_sum (s : List Nat) (c : Cursor) : Nat × Cursor :=
  if ht : (read_8 s c).1 < 255 then read_8 s c
  else
    let rest := spec_chunk_sum s (read_8 s c).2
    ((read_8 s c).1 + rest.1, rest.2)
termination_by (c.cdata + 1).toNat
decreasing_by
  have h255 : (read_8 s c).1 = 255 := by
    have := read_8_lt_256 s c
    omega
  have h0 : 0 ≤ c.cdata := read_8_eq_255_nonneg s c h255
  have h1 := read_8_cdata s c
  omega

def spec_copy_len (s : List Nat) (c : Cursor) : Nat × Cursor :=
  match read_2 s c with
  | (t1, c) =>
    if t1 < 3 then (3 + t1, c)
    else
      match read_max_8 s c 3 with
      | (t2, c) =>
        if t2 < 7 then (3 + t1 + t2, c)
        else
          match read_max_8 s c 5 with
          | (t3, c) =>
            if t3 < 31 then (3 + t1 + t2 + t3, c)
            else
              match spec_chunk_sum s c with
              | (t4, c) => (3 + t1 + t2 + t3 + t4, c)

def spec_copy_cmd (s : List Nat) (c : Cursor) : (Nat × Nat) × Cursor :=
  match read_13 s c with
  | (raw, c) =>
    match spec_copy_len s c with
    | (len, c) => ((raw + 3, len), c)

/-! ### Bounds for the tier reads -/

theorem bit_mask_eq (n : Nat) (h : n ≤ 15) : bit_mask n = 2 ^ n - 1 := by
  interval_cases n <;> rfl

theorem read_2_le_3 (s : List Nat) (c : Cursor) : (read_2 s c).1 ≤ 3 := by
  simp only [read_2]
  split
  · exact Nat.and_le_right
  · have h1 : (getU8 s c.cdata &&& 1) <<< 1 < 4 := by
      have : getU8 s c.cdata &&& 1 ≤ 1 := Nat.and_le_right
      have heq : (getU8 s c.cdata &&& 1) <<< 1 = (getU8 s c.cdata &&& 1) * 2 := by
        simp [Nat.shiftLeft_eq]
      omega
    have h2 : getU8 s (c.cdata - 1) >>> 7 < 4 := by
      have := getU8_lt_256 s (c.cdata - 1)
      rw [Nat.shiftRight_eq_div_pow]
      omega
    have := Nat.or_lt_two_pow (n := 2) h1 h2
    omega

theorem read_max_8_core_lt (s : List Nat) (cd : Int) (bl : Nat) (bits0 : Nat)
    (hb : bits0 ≤ 8) : (read_max_8_core s cd bl bits0).1 < 2 ^ bits0 := by
  have hmask : ∀ (x : Nat) (n : Nat), n ≤ 8 → x &&& bit_mask n % 256 < 2 ^ n := by
    intro x n hn
    calc x &&& bit_mask n % 256 ≤ bit_mask n % 256 := Nat.and_le_right
      _ ≤ bit_mask n := Nat.mod_le _ _
      _ < 2 ^ n := by
        rw [bit_mask_eq n (by omega)]
        have hpos : 0 < 2 ^ n := by positivity
        omega
  simp only [read_max_8_core]
  split
  · next hdone =>
    have hbr : min bits0 bl = bits0 := by omega
    rw [hbr]
    exact hmask _ _ hb
  · next hnotdone =>
    have hbr2 : min (bits0 - min bits0 bl) 8 = bits0 - min bits0 bl := by omega
    have hsum : min bits0 bl + (bits0 - min bits0 bl) = bits0 := by omega
    have hhi : ((getU8 s cd >>> (bl - min bits0 bl) &&& bit_mask (min bits0 bl) % 256) <<<
        min (bits0 - min bits0 bl) 8) % 256 < 2 ^ bits0 := by
      calc _ ≤ (getU8 s cd >>> (bl - min bits0 bl) &&& bit_mask (min bits0 bl) % 256) <<<
            min (bits0 - min bits0 bl) 8 := Nat.mod_le _ _
        _ < 2 ^ min bits0 bl * 2 ^ (bits0 - min bits0 bl) := by
          rw [Nat.shiftLeft_eq, hbr2]
          exact Nat.mul_lt_mul_of_lt_of_le (hmask _ _ (by omega)) (Nat.le_refl _)
            (by positivity)
        _ = 2 ^ bits0 := by rw [← pow_add, hsum]
    have hlo : getU8 s (cd - 1) >>> (8 - min (bits0 - min bits0 bl) 8) &&&
        bit_mask (min (bits0 - min bits0 bl) 8) % 256 < 2 ^ bits0 :=
      Nat.lt_of_lt_of_le (hmask _ _ (by omega))
        (Nat.pow_le_pow_right (by norm_num) (by omega))
    split
    · exact Nat.or_lt_two_pow hhi hlo
    · next hnotdone2 =>
      exfalso
      omega

theorem read_max_8_lt (s : List Nat) (c : Cursor) (bits0 : Nat)
    (hb : bits0 ≤ 8) : (read_max_8 s c bits0).1 < 2 ^ bits0 := by
  rw [read_max_8]
  split <;> exact read_max_8_core_lt _ _ _ _ hb

/-! ### The code's copy decode equals the spec's Fibonacci decode -/

theorem read_chunks_eq_spec (s : List Nat) (c : Cursor) :
    read_chunks s c = spec_chunk_sum s c := by
  have H : ∀ n c, (c.cdata + 1).toNat ≤ n → read_chunks s c = spec_chunk_sum s c := by
    intro n
    induction n with
    | zero =>
      intro c hc
      have hne : (read_8 s c).1 ≠ 255 := by
        intro h255
        have := read_8_eq_255_nonneg s c h255
        omega
      rw [read_chunks, spec_chunk_sum, dif_neg hne,
        dif_pos (by have := read_8_lt_256 s c; omega : (read_8 s c).1 < 255)]
    | succ n ih =>
      intro c hc
      by_cases h255 : (read_8 s c).1 = 255
      · have h0 : 0 ≤ c.cdata := read_8_eq_255_nonneg s c h255
        have h1 := read_8_cdata s c
        rw [read_chunks, spec_chunk_sum, dif_pos h255, dif_neg (by omega),
          ih _ (by omega)]
      · rw [read_chunks, spec_chunk_sum, dif_neg h255,
          dif_pos (by have := read_8_lt_256 s c; omega : (read_8 s c).1 < 255)]
  exact H _ c (Nat.le_refl _)

theorem read_copy_len_eq_spec (s : List Nat) (c : Cursor) :
    read_copy_len s c = spec_copy_len s c := by
  rcases hr2 : read_2 s c with ⟨t1, c1⟩
  have ht1 : t1 ≤ 3 := by
    have := read_2_le_3 s c
    rw [hr2] at this
    exact this
  simp only [read_copy_len, spec_copy_len, hr2]
  by_cases h1 : t1 = 3
  · rcases hr3 : read_max_8 s c1 3 with ⟨t2, c2⟩
    have ht2 : t2 ≤ 7 := by
      have := read_max_8_lt s c1 3 (by norm_num)
      rw [hr3] at this
      omega
    simp only [h1, if_true, if_neg (by omega : ¬ (3:Nat) < 3), hr3]
    by_cases h2 : t2 = 7
    · rcases hr5 : read_max_8 s c2 5 with ⟨t3, c3⟩
      have ht3 : t3 ≤ 31 := by
        have := read_max_8_lt s c2 5 (by norm_num)
        rw [hr5] at this
        omega
      simp only [h2, if_true, if_neg (by omega : ¬ (7:Nat) < 7), hr5]
      by_cases h3 : t3 = 0x1f
      · simp only [h3, if_true, if_neg (by omega : ¬ (0x1f:Nat) < 31),
          read_chunks_eq_spec]
      · simp only [if_neg h3, if_pos (by omega : t3 < 31)]
    · simp only [if_neg h2, if_pos (by omega : t2 < 7)]
  · simp only [if_neg h1, if_pos (by omega : t1 < 3)]

/-- Claim C6: in the main loop's copy command, the copy offset is the 13-bit
raw field plus 3, and the copy length is `3 + t1 + t2 + t3 + Σ t4` where
`t1` is 2 bits (stop if `t1 < 3`), `t2` is 3 bits (stop if `t2 < 7`), `t3`
is 5 bits (stop if `t3 < 31`), and 8-bit chunks are added until one reads a
value `< 255`: the decoder transcribed from the source coincides with the
decoder transcribed from this property text, on every stream and cursor
state. -/
theorem copy_command_decode_spec (s : List Nat) (c : Cursor) :
    read_copy_cmd s c = spec_copy_cmd s c := by
  simp only [read_copy_cmd, spec_copy_cmd, read_copy_len_eq_spec]

/-! ### Concrete bit-reader streams (`cursor_read_stream_13bit` test) -/

/-- Iterate `read_13` and collect the returned values. -/
def read13_times : Nat → List Nat → Cursor → List Nat × Cursor
  | 0, _, c => ([], c)
  | n + 1, s, c =>
    match read_13 s c with
    | (v, c) =>
      match read13_times n s c with
      | (vs, c) => (v :: vs, c)

/-- The 8-byte stream quoted by the spec's scenario 3 (it is the prefix of
the 59-byte fixture of the `cursor_read_stream_13bit` test). -/
def streamC8 : List Nat := [0xCB, 0xA6, 0x69, 0x75, 0x4E, 0x32, 0xB1, 0xFB]

/-- The full 59-byte stream of the `cursor_read_stream_13bit` test
(layla.rs lines 396-401). -/
def laylaTestStream : List Nat :=
  [0xcb, 0xa6, 0x69, 0x75, 0x4e, 0x32, 0xb1, 0xfb, 0x3b, 0x53, 0x7d, 0x38,
   0x02, 0x7d, 0xd7, 0xe4, 0xed, 0xf0, 0xa5, 0x2f, 0x57, 0x6d, 0x3b, 0x2c,
   0x0c, 0x77, 0x02, 0x9e, 0x45, 0x3d, 0x30, 0x35, 0x6e, 0xed, 0xa7, 0x8d,
   0x5c, 0x91, 0x0c, 0xc9, 0x90, 0x59, 0x4d, 0x76, 0xe6, 0xe1, 0x68, 0x00,
   0x03, 0x69, 0xd7, 0x3b, 0x41, 0xe4, 0x11, 0xd4, 0x7f, 0x60, 0x70]

/-- Claim C8, counterexample: reading the 8-byte stream from its end
(`cdata` one past the end, `bits_left = 0`) gives `8054, 1225, 1850, 5786`,
not `3596, 511, 2568, 7748` as the claim states. -/
theorem read13_eight_byte_stream_values :
    (read13_times 4 streamC8 ⟨8, 0⟩).1 = [8054, 1225, 1850, 5786] ∧
      (read13_times 4 streamC8 ⟨8, 0⟩).1 ≠ [3596, 511, 2568, 7748] := by
  constructor <;> decide

/-- Claim C8, amended: the expected values `3596, 511, 2568, 7748` are the
first four `read_13` results of the full 59-byte stream of the repository's
`cursor_read_stream_13bit` test, read from its end with `bits_left = 0`
(the spec's scenario quoted only the first 8 bytes of that stream). -/
theorem read13_first_four_test_stream :
    (read13_times 4 laylaTestStream ⟨59, 0⟩).1 = [3596, 511, 2568, 7748] := by
  decide

/-! ## CRILAYLA decompressor main loop (`cpk/compress/layla.rs` lines 206-329)

The output buffer write pointer is a signed index into the output list.
The source's 3-way and 8-way unrolled copy writes execute left to right and
each read happens after the preceding writes, so they coincide with the
sequential loop `for k in 0..length { out[p-k] = out[p-k+offset] }` that
`lz_copy` performs.  Writes outside the output buffer (possible for
malformed streams; they stay inside the allocation or are undefined
behaviour in the source) are modelled as no-ops, reads outside as 0. -/

theorem read_copy_len_ge_3 (s : List Nat) (c : Cursor) : 3 ≤ (read_copy_len s c).1 := by
  rcases h2 : read_2 s c with ⟨t1, c1⟩
  rcases h3 : read_max_8 s c1 3 with ⟨t2, c2⟩
  rcases h5 : read_max_8 s c2 5 with ⟨t3, c3⟩
  rcases hc : read_chunks s c3 with ⟨t4, c4⟩
  simp only [read_copy_len, h2, h3, h5, hc]
  split_ifs <;> omega

theorem read_copy_cmd_len_ge_3 (s : List Nat) (c : Cursor) :
    3 ≤ (read_copy_cmd s c).1.2 := by
  rcases h13 : read_13 s c with ⟨raw, c1⟩
  rcases hlen : read_copy_len s c1 with ⟨len, c2⟩
  have := read_copy_len_ge_3 s c1
  rw [hlen] at this
  simp only [read_copy_cmd, h13, hlen]
  exact this

/-- The LZ77 backward copy (layla.rs lines 269-296): sequentially
`out[p - k] = out[p - k + offset]` for `k = 0 .. len - 1`. -/
def lz_copy : List Nat → Int → Nat → Nat → List Nat
  | out, _, _, 0 => out
  | out, p, offset, k + 1 => lz_copy (setI out p (getI out (p + offset))) (p - 1) offset k

/-- The main decompression loop of `LaylaDecompressorImpl::decompress`
(layla.rs lines 236-305): while the write pointer is at or above the write
minimum `output + 0x100`, read a flag bit; on 1 decode a copy command and
perform the backward copy, on 0 store a literal byte and decrement. -/
def layla_loop (s : List Nat) (out : List Nat) (pwrite : Int) (c : Cursor) : List Nat :=
  if h : 0x100 ≤ pwrite then
    if (read_1 s c).1 then
      layla_loop s
        (lz_copy out pwrite (read_copy_cmd s (read_1 s c).2).1.1
          (read_copy_cmd s (read_1 s c).2).1.2)
        (pwrite - (read_copy_cmd s (read_1 s c).2).1.2)
        (read_copy_cmd s (read_1 s c).2).2
    else
      layla_loop s (setI out pwrite (read_8 s (read_1 s c).2).1) (pwrite - 1)
        (read_8 s (read_1 s c).2).2
  else out
termination_by (pwrite - 0xFF).toNat
decreasing_by
  · have := read_copy_cmd_len_ge_3 s (read_1 s c).2
    omega
  · omega

/-- `LaylaHeader.uncompressed_size` (layla.rs lines 58-70): the `repr(C)`
header is reinterpreted from the input bytes in native (little-endian)
order; the u32 at offset 8. -/
def layla_unc_size (input : List Nat) : Nat := leU32At input 8

/-- `LaylaHeader.uncompressed_header_offset`: the u32 at offset 12. -/
def layla_unc_hdr_ofs (input : List Nat) : Nat := leU32At input 12

/-- `LaylaDecompressor::is_compressed` (layla.rs lines 316-318): first 8
bytes equal the little-endian `CRILAYLA` magic. -/
def layla_is_compressed (input : List Nat) : Bool :=
  leU64At input 0 == 0x414C59414C495243

/-- `LaylaDecompressor::decompress` plus `LaylaDecompressorImpl::decompress`
(layla.rs lines 224-235 and 320-328): allocate `uncompressed_size + 0x100`
bytes (uninitialized memory, modelled as zeros), copy the 0x100 bytes at
`input + 0x10 + uncompressed_header_offset` to the start of the output
(`uncmp_data` points into the compressed slice, which starts after the
16-byte header), and run the main loop with the write pointer at
`0x100 + uncompressed_size - 1` and the bit cursor at `uncmp_data` with
`bits_left = 0`. -/
def layla_decompress (input : List Nat) : List Nat :=
  let size := layla_unc_size input
  let ofs := layla_unc_hdr_ofs input
  let out0 := (List.range 0x100).map (fun k => getB input (0x10 + ofs + k)) ++
    List.replicate size 0
  layla_loop input out0 ((0x100 : Int) + size - 1) ⟨(0x10 : Int) + ofs, 0⟩

theorem length_lz_copy (k : Nat) (out : List Nat) (p : Int) (offset : Nat) :
    (lz_copy out p offset k).length = out.length := by
  induction k generalizing out p with
  | zero => rfl
  | succ k ih => rw [lz_copy, ih, length_setI]

theorem length_layla_loop (s : List Nat) (out : List Nat) (pwrite : Int) (c : Cursor) :
    (layla_loop s out pwrite c).length = out.length := by
  have H : ∀ n out pwrite c, (pwrite - 0xFF).toNat ≤ n →
      (layla_loop s out pwrite c).length = out.length := by
    intro n
    induction n with
    | zero =>
      intro out pwrite c hc
      rw [layla_loop, dif_neg (by omega)]
    | succ n ih =>
      intro out pwrite c hc
      by_cases hp : (0x100 : Int) ≤ pwrite
      · rw [layla_loop, dif_pos hp]
        split
        · have h3 := read_copy_cmd_len_ge_3 s (read_1 s c).2
          rw [ih _ _ _ (by omega), length_lz_copy]
        · rw [ih _ _ _ (by omega), length_setI]
      · rw [layla_loop, dif_neg hp]
  exact H _ out pwrite c (Nat.le_refl _)

theorem length_layla_decompress (input : List Nat) :
    (layla_decompress input).length = layla_unc_size input + 0x100 := by
  simp only [layla_decompress]
  rw [length_layla_loop]
  simp only [List.length_append, List.length_map, List.length_range, List.length_replicate]
  omega

theorem layla_decompress_size_zero (input : List Nat)
    (hsz : layla_unc_size input = 0) :
    layla_decompress input =
      (List.range 0x100).map (fun k => getB input (0x10 + layla_unc_hdr_ofs input + k)) := by
  simp only [layla_decompress, hsz]
  rw [layla_loop, dif_neg (by omega), List.replicate, List.append_nil]

theorem map_getB_eq_drop_take (input : List Nat) (a : Nat)
    (h : a + 0x100 ≤ input.length) :
    (List.range 0x100).map (fun k => getB input (a + k)) =
      (input.drop a).take 0x100 := by
  apply List.ext_getElem
  · simp
    omega
  · intro j h1 h2
    simp only [List.length_map, List.length_range] at h1
    simp only [List.getElem_map, List.getElem_range, List.getElem_take, List.getElem_drop]
    rw [getB, List.getD_eq_getElem _ 0 (by omega)]

unseal layla_loop

/-- The C3 counterexample input: a CRILAYLA header with
`uncompressed_size = 0` and `uncompressed_header_offset = 0`, followed by
0x100 tail bytes of value 7. -/
def inputC3 : List Nat :=
  [0x43, 0x52, 0x49, 0x4C, 0x41, 0x59, 0x4C, 0x41, 0, 0, 0, 0, 0, 0, 0, 0] ++
    List.replicate 0x100 7

set_option maxRecDepth 40000 in
/-- Claim C3, counterexample: the 0x100 bytes copied to the start of the
output are taken at `0x10 + uncompressed_header_offset` (relative to the
end of the 16-byte header), not at `uncompressed_header_offset` from the
start of the input: on `inputC3` (offset field 0) the decompressed output
is the all-7 tail, not `input[0 .. 0x100)`, which starts with the magic. -/
theorem layla_prefix_not_at_unbiased_offset :
    layla_decompress inputC3 = List.replicate 0x100 7 ∧
      (layla_decompress inputC3).take 0x100 ≠
        (inputC3.drop (layla_unc_hdr_ofs inputC3)).take 0x100 := by
  constructor <;> decide

/-- Claim C3, amended: the decoder produces exactly
`uncompressed_size + 0x100` bytes, and the 0x100-byte block copied verbatim
to the start of the output is `input[0x10 + ofs .. 0x10 + ofs + 0x100)`
(the offset is counted from the end of the 16-byte header); in particular
when `uncompressed_size = 0` (so the main loop, which may overwrite prefix
bytes on adversarial streams, does not run) the first 0x100 bytes of the
result equal that block. -/
theorem layla_decompress_length_and_tail (input : List Nat)
    (hofs : 0x10 + layla_unc_hdr_ofs input + 0x100 ≤ input.length) :
    (layla_decompress input).length = layla_unc_size input + 0x100 ∧
      (layla_unc_size input = 0 →
        (layla_decompress input).take 0x100 =
          (input.drop (0x10 + layla_unc_hdr_ofs input)).take 0x100) := by
  refine ⟨length_layla_decompress input, fun hsz => ?_⟩
  rw [layla_decompress_size_zero input hsz, ← map_getB_eq_drop_take input _ hofs,
    List.take_of_length_le (by simp)]

set_option maxRecDepth 40000 in
theorem layla_decompress_length_and_tail_witness :
    (0x10 + layla_unc_hdr_ofs inputC3 + 0x100 ≤ inputC3.length) ∧
      ((layla_decompress inputC3).length = layla_unc_size inputC3 + 0x100 ∧
        (layla_unc_size inputC3 = 0 →
          (layla_decompress inputC3).take 0x100 =
            (inputC3.drop (0x10 + layla_unc_hdr_ofs inputC3)).take 0x100)) :=
  ⟨by decide, layla_decompress_length_and_tail inputC3 (by decide)⟩


/-! ## P5R per-file decryptor (`cpk/encrypt/p5r.rs`) -/

/-- The `"CRI_CFATTR:ENCRYPT"` marker string, as bytes. -/
def ENCRYPT_MARK : List Nat :=
  [67, 82, 73, 95, 67, 70, 65, 84, 84, 82, 58, 69, 78, 67, 82, 89, 80, 84]

/-- The `"<NULL>"` sentinel for absent user strings, as bytes. -/
def NULL_MARK : List Nat := [60, 78, 85, 76, 76, 62]

/-- `P5RDecryptor::decrypt_in_place` (p5r.rs lines 39-54): buffers of at
most 0x820 bytes are returned unchanged; otherwise bytes `[0x20, 0x420)`
are XORed in place with bytes `[0x420, 0x820)`.  The scalar u64 path (the
default x86-64 build) and the SIMD paths XOR a write region with a disjoint
read region word by word, so the whole operation equals this byte-wise
`zipWith`. -/
def p5r_decrypt_in_place (input : List Nat) : List Nat :=
  if input.length ≤ 0x820 then input
  else
    input.take 0x20 ++
      List.zipWith (fun a b => a ^^^ b)
        ((input.drop 0x20).take 0x400) ((input.drop 0x420).take 0x400) ++
      input.drop 0x420

/-! ## Table schema (`schema/header.rs`, `schema/columns.rs`,
`schema/rows.rs`, `schema/strings.rs`)

Fallible parsing is modelled with `POutcome`: `ok`, `err` (a returned
`Err(Box<dyn Error>)`), and `panic` for Rust panics and undefined behaviour
(`todo!()`, out-of-range indexing/slicing, `transmute` of an invalid
discriminant).  Strings are kept as their raw bytes; Shift-JIS decoding and
UTF-8 validation (whose failure would panic in `to_str().unwrap()`) are not
modelled — all fixture strings are ASCII, where the encodings agree. -/

inductive CpkError where
  | truncated
  | missingTocOffset
  | missingContentOffset
  | noFileName
  | noFileSize
  | noExtractSize
  | getFilesNotCalled
deriving DecidableEq, Repr

inductive POutcome (α : Type) where
  | ok (v : α)
  | err (e : CpkError)
  | panic
deriving DecidableEq, Repr

def POutcome.bind : POutcome α → (α → POutcome β) → POutcome β
  | .ok v, f => f v
  | .err e, _ => .err e
  | .panic, _ => .panic

instance : Monad POutcome where
  pure := .ok
  bind := POutcome.bind

/-- A seekable byte source (`Read + Seek`): absolute position into a byte
sequence. -/
structure ByteStream where
  data : List Nat
  pos : Nat
deriving DecidableEq, Repr

/-- `Seek::seek(SeekFrom::Start(p))`. -/
def seekTo (s : ByteStream) (p : Nat) : ByteStream := ⟨s.data, p⟩

/-- `Read::read_exact(n)`: yields exactly `n` bytes or an EOF error (the
stream is left unchanged on failure; every caller reseeks absolutely). -/
def read_exact (s : ByteStream) (n : Nat) : POutcome (List Nat × ByteStream) :=
  if s.pos + n ≤ s.data.length then
    .ok ((s.data.drop s.pos).take n, ⟨s.data, s.pos + n⟩)
  else .err .truncated

/-- `ColumnType` (columns.rs lines 24-38). -/
inductive ColumnType where
  | byte | sbyte | uint16 | int16 | uint32 | int32 | uint64 | int64
  | single | double | string | data | guid
deriving DecidableEq, Repr

/-- `ColumnValue::get_type` (columns.rs lines 62-64): `transmute` of the
low nibble; nibbles 13-15 are an invalid discriminant (undefined
behaviour, modelled as `none`, which parsers turn into `panic`). -/
def column_type_of : Nat → Option ColumnType
  | 0 => some .byte
  | 1 => some .sbyte
  | 2 => some .uint16
  | 3 => some .int16
  | 4 => some .uint32
  | 5 => some .int32
  | 6 => some .uint64
  | 7 => some .int64
  | 8 => some .single
  | 9 => some .double
  | 10 => some .string
  | 11 => some .data
  | 12 => some .guid
  | _ => none

/-- `ColumnType::get_size` (columns.rs lines 41-49). -/
def type_size : ColumnType → Nat
  | .byte | .sbyte => 1
  | .uint16 | .int16 => 2
  | .uint32 | .int32 | .single | .string => 4
  | .uint64 | .int64 | .double | .data => 8
  | .guid => 16

/-- `RowValue` (rows.rs lines 12-27).  Integer variants carry the byte
representation as a `Nat`; the float variants keep their raw big-endian
bytes (bit-exact, no floating-point interpretation). -/
inductive RowValue where
  | none
  | byte (v : Nat)
  | sbyte (v : Nat)
  | uint16 (v : Nat)
  | int16 (v : Nat)
  | uint32 (v : Nat)
  | int32 (v : Nat)
  | uint64 (v : Nat)
  | int64 (v : Nat)
  | single (raw : List Nat)
  | double (raw : List Nat)
  | str (ofs : Nat)
  | data (ofs len : Nat)
  | guid (raw : List Nat)
deriving DecidableEq, Repr

/-- `Column` (columns.rs lines 74-78): the raw flag byte (low nibble type,
bits 4-6 the `ColumnFlag` bits), the name offset, the optional default. -/
structure Column where
  flag : Nat
  string_offset : Nat
  default : Option RowValue
deriving DecidableEq, Repr

/-- `ColumnFlag::NAME` = 1 << 4, `DEFAULT_VALUE` = 1 << 5,
`ROW_STORAGE` = 1 << 6 (columns.rs lines 13-20). -/
def FLAG_NAME : Nat := 0x10
def FLAG_DEFAULT_VALUE : Nat := 0x20
def FLAG_ROW_STORAGE : Nat := 0x40

/-- `Row::row_value` (rows.rs lines 96-115): build the tagged value from
the freshly read big-endian bytes; the `Guid` arm is an unconditional
`todo!()`, i.e. a panic. -/
def row_value (ctype : ColumnType) (slice : List Nat) : POutcome RowValue :=
  match ctype with
  | .byte => .ok (.byte (getB slice 0))
  | .sbyte => .ok (.sbyte (getB slice 0))
  | .uint16 => .ok (.uint16 (beU16At slice 0))
  | .int16 => .ok (.int16 (beU16At slice 0))
  | .uint32 => .ok (.uint32 (beU32At slice 0))
  | .int32 => .ok (.int32 (beU32At slice 0))
  | .single => .ok (.single (slice.take 4))
  | .string => .ok (.str (beU32At slice 0))
  | .uint64 => .ok (.uint64 (beU64At slice 0))
  | .int64 => .ok (.int64 (beU64At slice 0))
  | .double => .ok (.double (slice.take 8))
  | .data => .ok (.data (beU32At slice 0) (beU32At slice 4))
  | .guid => .panic

/-- `Row::create_row` (rows.rs lines 78-94): per column, columns without
`ROW_STORAGE` yield `RowValue::None`; otherwise read `type_size` bytes and
convert (`get_type` is evaluated for every column, so an invalid nibble is
undefined behaviour regardless of storage — the source computes it before
the storage check). -/
def create_row (h : ByteStream) : List Column → POutcome (List RowValue × ByteStream)
  | [] => .ok ([], h)
  | c :: rest =>
    match column_type_of (c.flag &&& 0xF) with
    | none => .panic
    | some ctype =>
      if c.flag &&& FLAG_ROW_STORAGE = FLAG_ROW_STORAGE then do
        let (slice, h) ← read_exact h (type_size ctype)
        let v ← row_value ctype slice
        let (vs, h) ← create_row h rest
        .ok (v :: vs, h)
      else do
        let (vs, h) ← create_row h rest
        .ok (.none :: vs, h)

/-! ### Table header accessors (`schema/header.rs` lines 49-86)

`TableHeader` is a zero-copy view; the accessors read big-endian fields of
the table bytes and add the `HEADER_OFFSET = 8` bias to the three pool
offsets.  (Reads past a too-short table are unchecked in the source's
`dangerous` build and follow the 0-padding convention.) -/

def th_encoding (alloc : List Nat) : Nat := getB alloc 0x9

def th_rows_offset (alloc : List Nat) : Nat := beU16At alloc 0xa + 8

def th_string_pool_offset (alloc : List Nat) : Nat := beU32At alloc 0xc + 8

def th_data_pool_offset (alloc : List Nat) : Nat := beU32At alloc 0x10 + 8

def th_column_count (alloc : List Nat) : Nat := beU16At alloc 0x18

def th_row_count (alloc : List Nat) : Nat := beU32At alloc 0x1c

/-- The column-reading loop of `Column::new_list` (columns.rs lines
96-118): read 5 bytes (flag + big-endian name offset); when the
`DEFAULT_VALUE` bit is set additionally read the typed constant. -/
def cols_loop : Nat → ByteStream → POutcome (List Column × ByteStream)
  | 0, h => .ok ([], h)
  | n + 1, h => do
    let (cur, h) ← read_exact h 5
    let flag := getB cur 0
    let sofs := beU32At cur 1
    if flag &&& FLAG_DEFAULT_VALUE = FLAG_DEFAULT_VALUE then
      match column_type_of (flag &&& 0xF) with
      | none => .panic
      | some ctype => do
        let (dslice, h) ← read_exact h (type_size ctype)
        let dv ← row_value ctype dslice
        let (rest, h) ← cols_loop n h
        .ok (⟨flag, sofs, some dv⟩ :: rest, h)
    else do
      let (rest, h) ← cols_loop n h
      .ok (⟨flag, sofs, none⟩ :: rest, h)

/-- `Column::new_list` (columns.rs line 97): seek to `HEADER_SIZE = 0x20`,
then read `column_count` entries. -/
def column_new_list (h : ByteStream) (alloc : List Nat) :
    POutcome (List Column × ByteStream) :=
  cols_loop (th_column_count alloc) (seekTo h 0x20)

/-- The row-reading loop of `Row::new_list` (rows.rs lines 71-75). -/
def rows_loop : Nat → ByteStream → List Column →
    POutcome (List (List RowValue) × ByteStream)
  | 0, h, _ => .ok ([], h)
  | n + 1, h, cols => do
    let (r, h) ← create_row h cols
    let (rs, h) ← rows_loop n h cols
    .ok (r :: rs, h)

/-- `Row::new_list` (rows.rs lines 68-76): seek to `rows_offset`, then
read `row_count` rows. -/
def row_new_list (h : ByteStream) (alloc : List Nat) (cols : List Column) :
    POutcome (List (List RowValue) × ByteStream) :=
  rows_loop (th_row_count alloc) (seekTo h (th_rows_offset alloc)) cols

/-- The NUL-terminated byte string starting at `ofs`
(`CStr::from_ptr`; a missing terminator stops at the end of the slice). -/
def cstr_at (stream : List Nat) (ofs : Nat) : List Nat :=
  (stream.drop ofs).takeWhile (fun b => b ≠ 0)

/-- The interning scan of `StringPoolFast::new_borrowed_utf8` /
`new_borrowed_shift_jis` (strings.rs lines 72-95): walk the pool slice,
recording `(offset, bytes)` for each NUL-terminated string. -/
def pool_scan (stream : List Nat) (ofs : Nat) : List (Nat × List Nat) :=
  if h : ofs < stream.length then
    (ofs, cstr_at stream ofs) :: pool_scan stream (ofs + (cstr_at stream ofs).length + 1)
  else []
termination_by stream.length - ofs
decreasing_by omega

/-- `StringPoolFast::get_string` (strings.rs lines 98-102). -/
def pool_get (pool : List (Nat × List Nat)) (ofs : Nat) : Option (List Nat) :=
  (pool.find? (fun p => p.1 == ofs)).map (fun p => p.2)

/-- `HighTable` (cpk/header.rs lines 32-41), specialized to
`StringPoolFast` as in `CpkReader`. -/
structure HighTable where
  alloc : List Nat
  columns : List Column
  strings : List (Nat × List Nat)
  rows : List (List RowValue)
deriving DecidableEq, Repr

/-- `HighTable::<StringPoolFast>::new` (cpk/header.rs lines 43-54): parse
columns from byte 0x20, slice the string pool raw bytes (Rust slicing
panics when `string_pool_offset > data_pool_offset` or the end exceeds the
table), parse rows, then intern the strings.  The `new_borrowed` dispatch
on the encoding tag performs the same byte scan in both encodings (the
decoded representation is not modelled). -/
def high_table_new (alloc : List Nat) : POutcome HighTable := do
  let cursor : ByteStream := ⟨alloc, 0x20⟩
  let (columns, cursor) ← column_new_list cursor alloc
  if th_string_pool_offset alloc ≤ th_data_pool_offset alloc ∧
      th_data_pool_offset alloc ≤ alloc.length then
    let str_raw := (alloc.drop (th_string_pool_offset alloc)).take
      (th_data_pool_offset alloc - th_string_pool_offset alloc)
    let (rows, _) ← row_new_list cursor alloc columns
    .ok ⟨alloc, columns, pool_scan str_raw 0, rows⟩
  else .panic

/-- `TableContainer::new` (cpk/header.rs lines 17-29): read the 0x10-byte
framing record, take the inner length from the native-endian (little-endian
host) u32 at +0x08, read that many bytes, and decrypt in place when the
table-encryption marker matches. -/
def table_container_new (stream : ByteStream) : POutcome (List Nat × ByteStream) := do
  let (table_header, stream) ← read_exact stream 0x10
  let size := leU32At table_header 0x8
  let (table, stream) ← read_exact stream size
  .ok (if table_is_encrypted table then decrypt_utf_in_place table else table, stream)



/-! ## CPK reader (`cpk/reader.rs`, `cpk/file.rs`) -/

/-- `CpkFile` (cpk/file.rs): strings are kept as bytes. -/
structure CpkFile where
  directory : List Nat
  file_name : List Nat
  file_offset : Nat
  file_size : Nat
  extract_size : Nat
  user_string : List Nat
deriving DecidableEq, Repr

/-- `P5RDecryptor::is_encrypted` (p5r.rs line 37):
`file.user_string() == "CRI_CFATTR:ENCRYPT"`. -/
def p5r_is_encrypted (file : CpkFile) : Bool :=
  file.user_string == ENCRYPT_MARK

/-- `CpkReader::DEFAULT_OFFSET = u64::MAX` (reader.rs line 40). -/
def DEFAULT_OFFSET : Nat := 2 ^ 64 - 1

/-- `CpkReader` state (reader.rs lines 30-37).  The cached `toc_table` is
only ever written by `get_files` and read by nothing the claims touch, so
it is not carried; `extract_file` consults only `content_ofs`. -/
structure CpkReaderState where
  stream : ByteStream
  start_pos : Nat
  content_ofs : Nat
  decryption : Bool
deriving DecidableEq, Repr

/-- `CpkReader::new` / `new_p5r` via `new_inner` (reader.rs lines 42-53):
remember the stream position; `content_ofs` starts at the sentinel. -/
def cpk_reader_new (stream : ByteStream) (decryption : Bool) : CpkReaderState :=
  ⟨stream, stream.pos, DEFAULT_OFFSET, decryption⟩

/-- Field-name byte strings used by the reader. -/
def TocOffset_B : List Nat := [84, 111, 99, 79, 102, 102, 115, 101, 116]

def ContentOffset_B : List Nat :=
  [67, 111, 110, 116, 101, 110, 116, 79, 102, 102, 115, 101, 116]

def DirName_B : List Nat := [68, 105, 114, 78, 97, 109, 101]

def FileName_B : List Nat := [70, 105, 108, 101, 78, 97, 109, 101]

def FileSize_B : List Nat := [70, 105, 108, 101, 83, 105, 122, 101]

def ExtractSize_B : List Nat := [69, 120, 116, 114, 97, 99, 116, 83, 105, 122, 101]

def FileOffset_B : List Nat := [70, 105, 108, 101, 79, 102, 102, 115, 101, 116]

def UserString_B : List Nat := [85, 115, 101, 114, 83, 116, 114, 105, 110, 103]

/-- The header-row scan of `CpkReader::get_files` (reader.rs lines 61-77):
walk `columns.zip(rows[0])`; break once both offsets are assigned; a column
with `NAME | ROW_STORAGE` whose cell is `UInt64` and whose name resolves to
`"TocOffset"` / `"ContentOffset"` assigns the corresponding offset
(`content` starts from the reader's current `content_ofs`, which the source
mutates in place). -/
def scan_offsets : List (Column × RowValue) → List (Nat × List Nat) → Nat → Nat →
    Nat × Nat
  | [], _, toc, content => (toc, content)
  | (col, rv) :: rest, strs, toc, content =>
    if toc ≠ DEFAULT_OFFSET ∧ content ≠ DEFAULT_OFFSET then (toc, content)
    else
      let next :=
        if col.flag &&& (FLAG_NAME ||| FLAG_ROW_STORAGE) = (FLAG_NAME ||| FLAG_ROW_STORAGE) then
          match rv with
          | .uint64 v =>
            match pool_get strs col.string_offset with
            | some s =>
              if s = TocOffset_B then (v, content)
              else if s = ContentOffset_B then (toc, v)
              else (toc, content)
            | none => (toc, content)
          | _ => (toc, content)
        else (toc, content)
      scan_offsets rest strs next.1 next.2

/-- `TocTableIndices` (reader.rs lines 189-197); absent columns keep
`usize::MAX`. -/
structure TocTableIndices where
  dir_name : Nat
  file_name : Nat
  file_size : Nat
  extract_size : Nat
  file_offset : Nat
  user_string : Nat
deriving DecidableEq, Repr

def USIZE_MAX : Nat := 2 ^ 64 - 1

/-- The loop of `TocTableIndices::new` (reader.rs lines 199-223). -/
def toc_indices_loop : List Column → List (Nat × List Nat) → Nat →
    TocTableIndices → TocTableIndices
  | [], _, _, inst => inst
  | c :: rest, strs, i, inst =>
    let inst :=
      match pool_get strs c.string_offset with
      | some s =>
        if s = DirName_B then { inst with dir_name := i }
        else if s = FileName_B then { inst with file_name := i }
        else if s = FileSize_B then { inst with file_size := i }
        else if s = ExtractSize_B then { inst with extract_size := i }
        else if s = FileOffset_B then { inst with file_offset := i }
        else if s = UserString_B then { inst with user_string := i }
        else inst
      | none => inst
    toc_indices_loop rest strs (i + 1) inst

def toc_table_indices (strs : List (Nat × List Nat)) (cols : List Column) :
    TocTableIndices :=
  toc_indices_loop cols strs 0
    ⟨USIZE_MAX, USIZE_MAX, USIZE_MAX, USIZE_MAX, USIZE_MAX, USIZE_MAX⟩

/-- `Row`'s `Index` impl (rows.rs lines 118-123): vector indexing panics
out of range (in particular at the `usize::MAX` sentinel of a missing
column). -/
def row_at (row : List RowValue) (i : Nat) : POutcome RowValue :=
  match row.get? i with
  | some v => .ok v
  | none => .panic

/-- Slice indexing `&cols[i]` (reader.rs lines 96-103). -/
def col_at (cols : List Column) (i : Nat) : POutcome Column :=
  match cols.get? i with
  | some c => .ok c
  | none => .panic

/-- `Row::cpk_get_file_name` (reader.rs lines 127-134). -/
def cpk_get_file_name (row : List RowValue) (strs : List (Nat × List Nat))
    (i : Nat) : POutcome (List Nat) := do
  match ← row_at row i with
  | .str ofs =>
    match pool_get strs ofs with
    | some s => .ok s
    | none => .err .noFileName
  | _ => .err .noFileName

/-- `Row::cpk_get_u32_value` (reader.rs lines 136-141); note the source
returns `NoFileName` for wrong variants here as well. -/
def cpk_get_u32_value (row : List RowValue) (i : Nat) : POutcome Nat := do
  match ← row_at row i with
  | .uint32 v => .ok v
  | _ => .err .noFileName

/-- `Row::cpk_get_file_offset` (reader.rs lines 153-158). -/
def cpk_get_file_offset (row : List RowValue) (i : Nat) : POutcome Nat := do
  match ← row_at row i with
  | .uint64 v => .ok v
  | _ => .err .noFileName

/-- `Row::cpk_get_string_may_default` (reader.rs lines 160-176): a present
`String` cell resolves through the pool; a `None` cell falls back to the
column's `String` default; anything else is `NoFileName`. -/
def cpk_get_string_may_default (column : Column) (strs : List (Nat × List Nat))
    (row : List RowValue) (i : Nat) : POutcome (List Nat) := do
  match ← row_at row i with
  | .str ofs =>
    match pool_get strs ofs with
    | some s => .ok s
    | none => .err .noFileName
  | .none =>
    match column.default with
    | some (.str ofs) =>
      match pool_get strs ofs with
      | some s => .ok s
      | none => .err .noFileName
    | _ => .err .noFileName
  | _ => .err .noFileName

/-- The per-row mapping loop of `get_files` (reader.rs lines 95-105). -/
def map_files (cols : List Column) (strs : List (Nat × List Nat))
    (ti : TocTableIndices) : List (List RowValue) → POutcome (List CpkFile)
  | [] => .ok []
  | row :: rest => do
    let dcol ← col_at cols ti.dir_name
    let directory_name ← cpk_get_string_may_default dcol strs row ti.dir_name
    let file_name ← cpk_get_file_name row strs ti.file_name
    let file_offset ← cpk_get_file_offset row ti.file_offset
    let file_size ← cpk_get_u32_value row ti.file_size
    let extract_size ← cpk_get_u32_value row ti.extract_size
    let ucol ← col_at cols ti.user_string
    let user_string ← cpk_get_string_may_default ucol strs row ti.user_string
    let out ← map_files cols strs ti rest
    .ok (⟨directory_name, file_name, file_offset, file_size, extract_size,
      user_string⟩ :: out)

/-- `CpkReader::get_files` (reader.rs lines 55-107).  The reader state is
threaded explicitly because the source mutates `self.content_ofs` during
the scan, before the `MissingTocOffset` check can fail. -/
def get_files (r : CpkReaderState) : POutcome (List CpkFile) × CpkReaderState :=
  let stream := seekTo r.stream r.start_pos
  match table_container_new stream with
  | .err e => (.err e, { r with stream := stream })
  | .panic => (.panic, { r with stream := stream })
  | .ok (alloc, stream) =>
    match high_table_new alloc with
    | .err e => (.err e, { r with stream := stream })
    | .panic => (.panic, { r with stream := stream })
    | .ok cpk_table =>
      match cpk_table.rows.head? with
      | none => (.panic, { r with stream := stream })
      | some row0 =>
        let sc := scan_offsets (cpk_table.columns.zip row0) cpk_table.strings
          DEFAULT_OFFSET r.content_ofs
        let toc_offset := sc.1
        let r := { r with stream := stream, content_ofs := sc.2 }
        if toc_offset = DEFAULT_OFFSET then (.err .missingTocOffset, r)
        else if r.content_ofs = DEFAULT_OFFSET then (.err .missingContentOffset, r)
        else
          let r := if toc_offset < r.content_ofs then { r with content_ofs := toc_offset }
            else r
          let stream := seekTo r.stream toc_offset
          match table_container_new stream with
          | .err e => (.err e, { r with stream := stream })
          | .panic => (.panic, { r with stream := stream })
          | .ok (talloc, stream) =>
            match high_table_new talloc with
            | .err e => (.err e, { r with stream := stream })
            | .panic => (.panic, { r with stream := stream })
            | .ok toc_table =>
              let r := { r with stream := stream }
              let ti := toc_table_indices toc_table.strings toc_table.columns
              match map_files toc_table.columns toc_table.strings ti toc_table.rows with
              | .err e => (.err e, r)
              | .panic => (.panic, r)
              | .ok files => (.ok files, r)

/-- `CpkReader::extract_file` (reader.rs lines 109-123): refuse with
`GetFilesNotCalled` while `content_ofs` still holds the sentinel; otherwise
seek to `content_ofs + file_offset`, read `file_size` bytes, apply the P5R
decryptor whenever the reader was built with decryption (the source never
consults `P5RDecryptor::is_encrypted`), and decompress when the CRILAYLA
magic is present. -/
def extract_file (r : CpkReaderState) (file : CpkFile) :
    POutcome (List Nat) × CpkReaderState :=
  if r.content_ofs = DEFAULT_OFFSET then (.err .getFilesNotCalled, r)
  else
    let stream := seekTo r.stream (r.content_ofs + file.file_offset)
    match read_exact stream file.file_size with
    | .err e => (.err e, { r with stream := stream })
    | .panic => (.panic, { r with stream := stream })
    | .ok (out, stream) =>
      let out := if r.decryption then p5r_decrypt_in_place out else out
      (.ok (if layla_is_compressed out then layla_decompress out else out),
        { r with stream := stream })



/-! ### Claim theorems over the schema and reader -/

@[simp] theorem ok_bind (v : α) (f : α → POutcome β) :
    POutcome.ok v >>= f = f v := rfl

@[simp] theorem err_bind (e : CpkError) (f : α → POutcome β) :
    POutcome.err e >>= f = POutcome.err e := rfl

@[simp] theorem panic_bind (f : α → POutcome β) :
    POutcome.panic >>= f = POutcome.panic := rfl

theorem getB_drop_take (l : List Nat) (p n j : Nat) (hj : j < n) :
    getB ((l.drop p).take n) j = getB l (p + j) := by
  by_cases h : p + j < l.length
  · rw [getB, getB, List.getD_eq_getElem _ 0 (by simp; omega),
      List.getD_eq_getElem _ 0 h]
    simp [List.getElem_take, List.getElem_drop]
  · rw [getB_eq_zero_of_le _ _ (by simp; omega), getB_eq_zero_of_le _ _ (by omega)]

theorem leU32At_drop_take (l : List Nat) (p n j : Nat) (h : j + 4 ≤ n) :
    leU32At ((l.drop p).take n) j = leU32At l (p + j) := by
  simp only [leU32At, getB_drop_take l p n j (by omega),
    getB_drop_take l p n (j + 1) (by omega), getB_drop_take l p n (j + 2) (by omega),
    getB_drop_take l p n (j + 3) (by omega)]
  rw [show p + (j + 1) = p + j + 1 by omega, show p + (j + 2) = p + j + 2 by omega,
    show p + (j + 3) = p + j + 3 by omega]

/-- Claim C10: a `Guid`-typed cell never converts to a row value or an
error — `row_value` is an unconditional panic (`todo!()`) on `Guid` — and
consequently `create_row` never returns `ok` for any column list that
contains a `Guid` column with the per-row-storage flag set: row decoding is
not total on such inputs. -/
theorem guid_cell_never_decodes (cols : List Column)
    (hguid : ∃ c ∈ cols, c.flag &&& 0xF = 12 ∧
      c.flag &&& FLAG_ROW_STORAGE = FLAG_ROW_STORAGE) :
    (∀ slice, row_value .guid slice = .panic) ∧
      ∀ (h : ByteStream) (res : List RowValue × ByteStream),
        create_row h cols ≠ .ok res := by
  refine ⟨fun slice => rfl, ?_⟩
  induction cols with
  | nil => simp at hguid
  | cons c rest ih =>
    intro h res hok
    rw [create_row] at hok
    rcases hguid with ⟨cg, hmem, hg12, hgst⟩
    rcases List.mem_cons.mp hmem with heq | hmem2
    · subst heq
      rw [hg12] at hok
      simp only [column_type_of] at hok
      rw [if_pos hgst] at hok
      rcases hre : read_exact h (type_size .guid) with ⟨slice, h2⟩ | e | _ <;>
        simp [hre, row_value] at hok
    · rcases hct : column_type_of (c.flag &&& 0xF) with _ | ctype <;> simp only [hct] at hok
      · simp at hok
      · by_cases hst : c.flag &&& FLAG_ROW_STORAGE = FLAG_ROW_STORAGE
        · rw [if_pos hst] at hok
          rcases hre : read_exact h (type_size ctype) with ⟨slice, h2⟩ | e | _ <;>
            rw [hre] at hok <;> simp at hok
          rcases hrv : row_value ctype slice with v | e | _ <;>
            rw [hrv] at hok <;> simp at hok
          rcases hcr : create_row h2 rest with res2 | e | _ <;>
            rw [hcr] at hok <;> simp at hok
          exact ih ⟨cg, hmem2, hg12, hgst⟩ h2 res2 hcr
        · rw [if_neg hst] at hok
          rcases hcr : create_row h rest with res2 | e | _ <;>
            rw [hcr] at hok <;> simp at hok
          exact ih ⟨cg, hmem2, hg12, hgst⟩ h res2 hcr

theorem guid_cell_never_decodes_witness :
    (∃ c ∈ [(⟨0x4C, 0, Option.none⟩ : Column)], c.flag &&& 0xF = 12 ∧
        c.flag &&& FLAG_ROW_STORAGE = FLAG_ROW_STORAGE) ∧
      ((∀ slice, row_value .guid slice = .panic) ∧
        ∀ (h : ByteStream) (res : List RowValue × ByteStream),
          create_row h [(⟨0x4C, 0, Option.none⟩ : Column)] ≠ .ok res) :=
  ⟨by decide, guid_cell_never_decodes _ (by decide)⟩


/-! ### Fixtures and claim theorems for the table container and reader -/

unseal pool_scan

/-- A container stream whose framing record carries length bytes
`[0x00, 0x01, 0x00, 0x00]` at +0x08: 0x100 read as little-endian,
0x10000 read as big-endian. -/
def dataC5 : List Nat :=
  [0x43, 0x50, 0x4B, 0x20, 0, 0, 0, 0, 0, 1, 0, 0, 0, 0, 0, 0] ++
    List.replicate 300 0x11

set_option maxRecDepth 40000 in
/-- Claim C5, counterexample: `TableContainer::new` reads the inner table
length in native (little-endian) byte order, not big-endian: on `dataC5`
it reads exactly 0x100 table bytes, while the big-endian interpretation of
the length field is 0x10000 (which would not even fit the stream). -/
theorem table_container_not_big_endian :
    table_container_new ⟨dataC5, 0⟩ =
        .ok (List.replicate 0x100 0x11, ⟨dataC5, 0x110⟩) ∧
      beU32At dataC5 8 = 0x10000 := by
  constructor <;> decide

/-- Claim C5, amended: the inner table length is the u32 at +0x08 of the
0x10-byte framing record read in native (little-endian on the supported
hosts) byte order, and exactly that many bytes are then read (and decrypted
in place when the encryption marker matches, preserving the length). -/
theorem table_container_native_length (data : List Nat) (pos : Nat)
    (hsz : pos + 0x10 + leU32At data (pos + 8) ≤ data.length) :
    ∃ t s', table_container_new ⟨data, pos⟩ = .ok (t, s') ∧
      t.length = leU32At data (pos + 8) := by
  have h16 : pos + 0x10 ≤ data.length := by omega
  have hv : table_container_new ⟨data, pos⟩ =
      .ok (if table_is_encrypted ((data.drop (pos + 0x10)).take (leU32At data (pos + 8)))
            then decrypt_utf_in_place
              ((data.drop (pos + 0x10)).take (leU32At data (pos + 8)))
            else (data.drop (pos + 0x10)).take (leU32At data (pos + 8)),
          ⟨data, pos + 0x10 + leU32At data (pos + 8)⟩) := by
    simp only [table_container_new, read_exact]
    rw [if_pos (by simpa using h16)]
    simp only [ok_bind, leU32At_drop_take data pos 0x10 0x8 (by norm_num)]
    rw [if_pos (by simpa using hsz)]
    simp only [ok_bind]
  refine ⟨_, _, hv, ?_⟩
  have hlen : ((data.drop (pos + 0x10)).take (leU32At data (pos + 8))).length =
      leU32At data (pos + 8) := by
    simp only [List.length_take, List.length_drop]
    omega
  split
  · rw [length_decrypt_utf_in_place, hlen]
  · exact hlen

set_option maxRecDepth 40000 in
theorem table_container_native_length_witness :
    (0 + 0x10 + leU32At dataC5 (0 + 8) ≤ dataC5.length) ∧
      ∃ t s', table_container_new ⟨dataC5, 0⟩ = .ok (t, s') ∧
        t.length = leU32At dataC5 (0 + 8) :=
  ⟨by decide, table_container_native_length dataC5 0 (by decide)⟩

/-- A CPK whose header table carries a `ContentOffset` column (value 0) but
no `TocOffset` column, so `get_files` assigns `content_ofs` and then fails
with `MissingTocOffset`. -/
def dataC4 : List Nat :=
  [67, 80, 75, 32, 0, 0, 0, 0, 60, 0, 0, 0,
   0, 0, 0, 0, 64, 85, 84, 70, 0, 0, 0, 0,
   0, 1, 0, 29, 0, 0, 0, 37, 0, 0, 0, 52,
   0, 0, 0, 0, 0, 1, 0, 0, 0, 0, 0, 1,
   86, 0, 0, 0, 1, 0, 0, 0, 0, 0, 0, 0,
   0, 0, 67, 111, 110, 116, 101, 110, 116, 79, 102, 102,
   115, 101, 116, 0]

/-- An arbitrary file record presented to `extract_file` after the failed
catalog: 8 bytes at offset 0. -/
def fileC4 : CpkFile := ⟨[], [], 0, 8, 8, NULL_MARK⟩

set_option maxRecDepth 40000 in
/-- Claim C4, counterexample: on `dataC4`, `get_files` fails with
`MissingTocOffset`, yet the failed call has already overwritten
`content_ofs` (with 0), so a subsequent `extract_file` is not refused: it
happily reads and returns 8 bytes instead of the `GetFilesNotCalled`
(catalog-not-built) error. -/
theorem extract_after_failed_catalog :
    (get_files (cpk_reader_new ⟨dataC4, 0⟩ false)).1 = .err .missingTocOffset ∧
      (extract_file (get_files (cpk_reader_new ⟨dataC4, 0⟩ false)).2 fileC4).1 =
        .ok [67, 80, 75, 32, 0, 0, 0, 0] := by
  constructor <;> decide

theorem read_exact_err (s : ByteStream) (n : Nat) (e : CpkError)
    (h : read_exact s n = .err e) : e = .truncated := by
  rw [read_exact] at h
  split at h
  · simp at h
  · simp only [POutcome.err.injEq] at h
    exact h.symm


/-- Claim C4, amended: `extract_file` refuses with the catalog-not-built
error (`GetFilesNotCalled`) exactly when `content_ofs` still holds the
`u64::MAX` sentinel; in particular a freshly constructed reader always
refuses, but a `get_files` call that failed after scanning a
`ContentOffset` cell has already overwritten the sentinel and no longer
puts the reader into the refusing state. -/
theorem extract_refusal_iff_sentinel :
    (∀ (stream : ByteStream) (dec : Bool) (f : CpkFile),
        (extract_file (cpk_reader_new stream dec) f).1 = .err .getFilesNotCalled) ∧
      ∀ (r : CpkReaderState) (f : CpkFile),
        ((extract_file r f).1 = .err .getFilesNotCalled ↔
          r.content_ofs = DEFAULT_OFFSET) := by
  have hiff : ∀ (r : CpkReaderState) (f : CpkFile),
      ((extract_file r f).1 = .err .getFilesNotCalled ↔
        r.content_ofs = DEFAULT_OFFSET) := by
    intro r f
    constructor
    · intro h
      by_contra hne
      simp only [extract_file] at h
      rw [if_neg hne] at h
      rcases hre : read_exact (seekTo r.stream (r.content_ofs + f.file_offset))
          f.file_size with ⟨out, s2⟩ | e | _ <;> rw [hre] at h <;> simp at h
      have := read_exact_err _ _ _ hre
      subst this
      exact absurd h.symm (by simp)
    · intro h
      rw [extract_file, if_pos h]
  exact ⟨fun stream dec f => (hiff _ f).mpr rfl, hiff⟩

/-! ### Claim C1: the extraction decrypts regardless of the marker -/

theorem getB_append_lo (a b : List Nat) (j : Nat) (h : j < a.length) :
    getB (a ++ b) j = getB a j := List.getD_append _ _ _ _ h

theorem getB_append_hi (a b : List Nat) (j : Nat) (h : a.length ≤ j) :
    getB (a ++ b) j = getB b (j - a.length) := List.getD_append_right _ _ _ _ h

theorem getB_take (l : List Nat) (n j : Nat) (hj : j < n) :
    getB (l.take n) j = getB l j := by
  have h := getB_drop_take l 0 n j hj
  rw [List.drop_zero] at h
  simpa using h

theorem getB_zipWith (f : Nat → Nat → Nat) (a b : List Nat) (j : Nat)
    (ha : j < a.length) (hb : j < b.length) :
    getB (List.zipWith f a b) j = f (getB a j) (getB b j) := by
  show (List.zipWith f a b).getD j 0 = f (a.getD j 0) (b.getD j 0)
  rw [List.getD_eq_getElem _ 0 (by simp; omega), List.getElem_zipWith,
    List.getD_eq_getElem _ 0 ha, List.getD_eq_getElem _ 0 hb]

theorem getB_replicate0 (n j : Nat) : getB (List.replicate n 0) j = 0 := by
  show (List.replicate n 0).getD j 0 = 0
  by_cases h : j < n
  · rw [List.getD_eq_getElem _ 0 (by simpa using h), List.getElem_replicate]
  · rw [List.getD_eq_getElem?_getD,
      List.getElem?_eq_none (by simpa using Nat.le_of_not_lt h)]
    rfl

/-- The 0x821-byte content region for claim C1: all zeros except byte
0x420, which is 7, so the P5R XOR visibly changes output byte 0x20 from 0
to 7.  (The region exceeds the 0x820-byte threshold below which the
decryptor is a no-op.) -/
def contentC1 : List Nat :=
  List.replicate 0x420 0 ++ 7 :: List.replicate 0x400 0

/-- The catalogued file record: `dir/a.bin`, 0x821 bytes at file offset 0,
user string `"<NULL>"` — not the `"CRI_CFATTR:ENCRYPT"` marker. -/
def fileRecC1 : CpkFile :=
  ⟨[100, 105, 114], [97, 46, 98, 105, 110], 0, 0x821, 0x821, NULL_MARK⟩

/-- A reader built with P5R decryption (`decryption` set) whose catalog
scan has replaced the `content_ofs` sentinel with 0 and whose stream holds
the content region (`extract_after_failed_catalog` exhibits catalog scans
producing exactly such sentinel-free states). -/
def readerC1 : CpkReaderState := ⟨⟨contentC1, 0⟩, 0, 0, true⟩

def outcome_bytes : POutcome (List Nat) → List Nat
  | .ok v => v
  | _ => []

theorem outcome_bytes_ok (v : List Nat) : outcome_bytes (.ok v) = v := rfl

theorem contentC1_length : contentC1.length = 0x821 := by
  show (List.replicate 0x420 0 ++ 7 :: List.replicate 0x400 0).length = 0x821
  rw [List.length_append, List.length_cons, List.length_replicate,
    List.length_replicate]

theorem getB_contentC1_lo (j : Nat) (hj : j < 0x420) : getB contentC1 j = 0 := by
  show getB (List.replicate 0x420 0 ++ 7 :: List.replicate 0x400 0) j = 0
  rw [getB_append_lo _ _ _ (by rw [List.length_replicate]; omega)]
  exact getB_replicate0 _ _

theorem getB_contentC1_mid : getB contentC1 0x420 = 7 := by
  show getB (List.replicate 0x420 0 ++ 7 :: List.replicate 0x400 0) 0x420 = 7
  rw [getB_append_hi _ _ _ (by rw [List.length_replicate])]
  rw [List.length_replicate, Nat.sub_self]
  rfl

/-- On the oversize `contentC1` the P5R decryptor takes the XOR branch. -/
theorem p5rC1_eq : p5r_decrypt_in_place contentC1 =
    contentC1.take 0x20 ++
      List.zipWith (fun a b => a ^^^ b)
        ((contentC1.drop 0x20).take 0x400) ((contentC1.drop 0x420).take 0x400) ++
      contentC1.drop 0x420 := by
  simp only [p5r_decrypt_in_place, contentC1_length]
  norm_num

theorem getB_p5rC1_lo (j : Nat) (hj : j < 0x20) :
    getB (p5r_decrypt_in_place contentC1) j = 0 := by
  rw [p5rC1_eq, getB_append_lo _ _ _ (by simp [contentC1_length]; omega),
    getB_append_lo _ _ _ (by simp [contentC1_length]; omega),
    getB_take _ _ _ hj]
  exact getB_contentC1_lo j (by omega)

theorem getB_p5rC1_20 : getB (p5r_decrypt_in_place contentC1) 0x20 = 7 := by
  have hA : (contentC1.take 0x20).length = 0x20 := by
    simp [contentC1_length]
  rw [p5rC1_eq, getB_append_lo _ _ _ (by simp [contentC1_length]),
    getB_append_hi _ _ _ (by rw [hA]), hA]
  norm_num
  rw [getB_zipWith _ _ _ 0 (by simp [contentC1_length]) (by simp [contentC1_length]),
    getB_drop_take _ _ _ _ (by norm_num), getB_drop_take _ _ _ _ (by norm_num)]
  norm_num [getB_contentC1_lo 0x20 (by norm_num), getB_contentC1_mid]

theorem laylaC1_false :
    layla_is_compressed (p5r_decrypt_in_place contentC1) = false := by
  have h : ∀ j, j < 8 → getB (p5r_decrypt_in_place contentC1) j = 0 :=
    fun j hj => getB_p5rC1_lo j (by omega)
  simp only [layla_is_compressed, leU64At, leU32At]
  rw [h 0 (by norm_num), h (0+1) (by norm_num), h (0+2) (by norm_num),
    h (0+3) (by norm_num), h 4 (by norm_num), h (4+1) (by norm_num),
    h (4+2) (by norm_num), h (4+3) (by norm_num)]
  decide

/-- The successful-read, P5R-enabled, not-CRILAYLA evaluation of
`extract_file`, stated over abstract inputs. -/
theorem extract_file_ok (r : CpkReaderState) (f : CpkFile) (out : List Nat)
    (s2 : ByteStream) (hne : ¬ r.content_ofs = DEFAULT_OFFSET)
    (hread : read_exact (seekTo r.stream (r.content_ofs + f.file_offset))
      f.file_size = .ok (out, s2))
    (hdec : r.decryption = true)
    (hcomp : layla_is_compressed (p5r_decrypt_in_place out) = false) :
    (extract_file r f).1 = .ok (p5r_decrypt_in_place out) := by
  simp only [extract_file]
  rw [if_neg hne, hread]
  simp [hdec, hcomp]

theorem extract_readerC1 :
    (extract_file readerC1 fileRecC1).1 = .ok (p5r_decrypt_in_place contentC1) := by
  have hread : read_exact
      (seekTo readerC1.stream (readerC1.content_ofs + fileRecC1.file_offset))
      fileRecC1.file_size = .ok (contentC1, ⟨contentC1, 0x821⟩) := by
    show read_exact ⟨contentC1, 0⟩ 0x821 = .ok (contentC1, ⟨contentC1, 0x821⟩)
    rw [read_exact, if_pos (by rw [contentC1_length])]
    rw [List.drop_zero, List.take_of_length_le (by rw [contentC1_length])]
  exact extract_file_ok readerC1 fileRecC1 contentC1 ⟨contentC1, 0x821⟩
    (by decide) hread rfl laylaC1_false

/-- Claim C1, code bug: a reader constructed with P5R decryption enabled
applies the XOR to every extracted buffer longer than 0x820 bytes —
`extract_file` (reader.rs line 116) tests only `self.decryption.is_some()`
and never consults `P5RDecryptor::is_encrypted`, the dead code that
implements the `"CRI_CFATTR:ENCRYPT"` marker check.  On `readerC1` the
catalogued record `fileRecC1` carries user string `"<NULL>"`
(`p5r_is_encrypted` is false), yet the extracted bytes come back XORed:
output byte 0x20 is 7 while the stream byte it was read from is 0.  The
claim's "decrypt iff marked" fails for every unmarked file over 0x820
bytes. -/
theorem extract_decrypts_unmarked_file :
    p5r_is_encrypted fileRecC1 = false ∧
      (extract_file readerC1 fileRecC1).1 = .ok (p5r_decrypt_in_place contentC1) ∧
      getB (outcome_bytes (extract_file readerC1 fileRecC1).1) 0x20 = 7 ∧
      getB contentC1 0x20 = 0 := by
  refine ⟨by decide, extract_readerC1, ?_, getB_contentC1_lo 0x20 (by norm_num)⟩
  have hcong := congrArg (fun o => getB (outcome_bytes o) 0x20) extract_readerC1
  exact hcong.trans
    ((congrArg (fun l => getB l 0x20)
      (outcome_bytes_ok (p5r_decrypt_in_place contentC1))).trans getB_p5rC1_20)

/-! ## Slab free-list allocator (`cpk/free_list.rs`)

The 256-bit occupancy bitmap `used: [u64; 4]` is manipulated through a
`*mut u8` byte pointer; it is modelled as its little-endian byte sequence
(32 bytes), so conceptual bit `j` of the bitmap is bit `j % 8` of byte
`j / 8`.  Managed nodes are tracked as `(start_block, size)` pairs: a
node's pointer is `slab + start << 18`, so `deallocate`'s
`(ptr - slab) >> 18` recovers exactly `start`.  Heap-fallback (unmanaged)
nodes never touch the bitmap and carry no slab state. -/

def BIT_MASK_U8 : List Nat := [0x00, 0x01, 0x03, 0x07, 0x0f, 0x1f, 0x3f, 0x7f, 0xff]

def bit_mask_u8 (n : Nat) : Nat := BIT_MASK_U8.getD n 0

/-- `FreeList::bit_bounds_check`. -/
def bit_bounds_check (start len : Nat) : Prop := len = 0 ∨ start + len > 255

instance (start len : Nat) : Decidable (bit_bounds_check start len) := by
  unfold bit_bounds_check
  infer_instance

/-- The byte-wise middle loop of `bit_on` (`*byte = 0xff` repeated). -/
def setFF : List Nat → Nat → Nat → List Nat
  | used, _, 0 => used
  | used, idx, n + 1 => setFF (setB used idx 0xff) (idx + 1) n

/-- The byte-wise middle loop of `bit_off` (`*byte = 0x0` repeated). -/
def set00 : List Nat → Nat → Nat → List Nat
  | used, _, 0 => used
  | used, idx, n + 1 => set00 (setB used idx 0) (idx + 1) n

/-- `FreeList::bit_on`: set `len` bits from bit `start`: a partial leading
byte (when `start` is not byte-aligned), whole `0xff` bytes, then the
trailing partial byte. -/
def bit_on (used : List Nat) (start len0 : Nat) : List Nat :=
  if bit_bounds_check start len0 then used
  else
    let byteIdx := start >>> 3
    let bit := start &&& 7
    if bit ≠ 0 then
      let d := min len0 (8 - bit)
      let used := setB used byteIdx
        (getB used byteIdx ||| (bit_mask_u8 d <<< bit) % 256)
      let len := len0 - d
      let used := setFF used (byteIdx + 1) (len >>> 3)
      let r := len &&& 7
      if r ≠ 0 then
        setB used (byteIdx + 1 + (len >>> 3))
          (getB used (byteIdx + 1 + (len >>> 3)) ||| bit_mask_u8 r)
      else used
    else
      let used := setFF used byteIdx (len0 >>> 3)
      let r := len0 &&& 7
      if r ≠ 0 then
        setB used (byteIdx + (len0 >>> 3))
          (getB used (byteIdx + (len0 >>> 3)) ||| bit_mask_u8 r)
      else used

/-- `FreeList::bit_off`: clear `len` bits from bit `start` (`!x` on a `u8`
is `x ^^^ 0xFF`). -/
def bit_off (used : List Nat) (start len0 : Nat) : List Nat :=
  if bit_bounds_check start len0 then used
  else
    let byteIdx := start >>> 3
    let bit := start &&& 7
    if bit ≠ 0 then
      let d := min len0 (8 - bit)
      let used := setB used byteIdx
        (getB used byteIdx &&& ((bit_mask_u8 d <<< bit) % 256 ^^^ 0xFF))
      let len := len0 - d
      let used := set00 used (byteIdx + 1) (len >>> 3)
      let r := len &&& 7
      if r ≠ 0 then
        setB used (byteIdx + 1 + (len >>> 3))
          (getB used (byteIdx + 1 + (len >>> 3)) &&& (bit_mask_u8 r ^^^ 0xFF))
      else used
    else
      let used := set00 used byteIdx (len0 >>> 3)
      let r := len0 &&& 7
      if r ≠ 0 then
        setB used (byteIdx + (len0 >>> 3))
          (getB used (byteIdx + (len0 >>> 3)) &&& (bit_mask_u8 r ^^^ 0xFF))
      else used

/-- The byte-accumulating loop of `check_occupation`
(`res = (res << diff) | *byte; diff = 8` per whole byte); returns the
accumulator and the final byte index. -/
def occLoop : List Nat → Nat → Nat → Nat → Nat → Nat × Nat
  | _, idx, 0, res, _ => (res, idx)
  | used, idx, n + 1, res, diff =>
    occLoop used (idx + 1) n ((res <<< diff) ||| getB used idx) 8

/-- `FreeList::check_occupation`: OR together the (masked) bytes covering
bits `[start, start + min len 64)`; the result is 0 exactly when the
inspected bits are clear.  Note the `len.min(64)` truncation (the
accumulator is a `u64`): runs longer than 64 bits are only partially
inspected. -/
def check_occupation (used : List Nat) (start len0 : Nat) : Nat :=
  if bit_bounds_check start len0 then 0
  else
    let len1 := min len0 64
    let byteIdx := start >>> 3
    let bit := start &&& 7
    let diff := min len1 (8 - bit)
    if bit ≠ 0 then
      let res := getB used byteIdx &&& (bit_mask_u8 diff <<< bit) % 256
      let len := len1 - diff
      let lr := occLoop used (byteIdx + 1) (len >>> 3) res diff
      let r := len &&& 7
      if r ≠ 0 then (lr.1 <<< r) ||| (getB used lr.2 &&& bit_mask_u8 r) else lr.1
    else
      let lr := occLoop used byteIdx (len1 >>> 3) 0 diff
      let r := len1 &&& 7
      if r ≠ 0 then (lr.1 <<< r) ||| (getB used lr.2 &&& bit_mask_u8 r) else lr.1

/-- `FreeList::into_block`: `⌈size / 2^18⌉` (256 KiB blocks). -/
def into_block (size : Nat) : Nat := (size + (1 <<< 18) - 1) >>> 18

def USIZE_MAX2 : Nat := 2 ^ 64 - 1

theorem check_occupation_bounds (used : List Nat) (start len : Nat)
    (h : bit_bounds_check start len) : check_occupation used start len = 0 := by
  rw [check_occupation, if_pos h]

/-- `BasicSlidingWindowAllocator::get_free_block_index`: scan from 0 with
step `size` until a window reports occupation 0; accept it only when
`start + size <= 255`, else report `usize::MAX` (heap fallback). -/
def get_free_block_index (used : List Nat) (size : Nat) (start : Nat) : Nat :=
  if h : check_occupation used start size = 0 then
    if start + size ≤ 255 then start else USIZE_MAX2
  else get_free_block_index used size (start + size)
termination_by 256 - start
decreasing_by
  have hb : ¬ bit_bounds_check start size := fun hc => h (check_occupation_bounds _ _ _ hc)
  unfold bit_bounds_check at hb
  push_neg at hb
  omega

/-- The slab allocator state: the occupancy byte map plus the live managed
nodes as `(start_block, size)` pairs, newest first. -/
structure FreeListState where
  used : List Nat
  live : List (Nat × Nat)
deriving DecidableEq, Repr

/-- `FreeList::new`: all blocks free. -/
def fl_init : FreeListState := ⟨List.replicate 32 0, []⟩

/-- `FreeList::allocate`: quantize to blocks, scan for a free window, mark
it; on `usize::MAX` fall back to an unmanaged heap node (no slab state
changes). -/
def fl_alloc (st : FreeListState) (size : Nat) : FreeListState :=
  let blocks := into_block size
  let start := get_free_block_index st.used blocks 0
  if start = USIZE_MAX2 then st
  else ⟨bit_on st.used start blocks, (start, size) :: st.live⟩

/-- `FreeList::deallocate` as reached from `FreeListNode::drop`: clear the
node's block run and drop it from the live set (an out-of-range index
models dropping an unmanaged node: no slab effect). -/
def fl_free (st : FreeListState) (idx : Nat) : FreeListState :=
  match st.live.get? idx with
  | some (start, size) => ⟨bit_off st.used start (into_block size), st.live.eraseIdx idx⟩
  | none => st

inductive FLOp where
  | alloc (size : Nat)
  | free (idx : Nat)
deriving DecidableEq, Repr

def fl_step (st : FreeListState) : FLOp → FreeListState
  | .alloc size => fl_alloc st size
  | .free idx => fl_free st idx

def fl_run : FreeListState → List FLOp → FreeListState
  | st, [] => st
  | st, op :: rest => fl_run (fl_step st op) rest

/-- Conceptual bit `j` of the 256-bit occupancy bitmap. -/
def bitGet (used : List Nat) (j : Nat) : Bool :=
  Nat.testBit (getB used (j >>> 3)) (j &&& 7)

/-- The number of set bits in the occupancy bitmap. -/
def popcount (used : List Nat) : Nat :=
  ((List.range 256).filter (fun j => bitGet used j)).length

/-- `Σ ⌈size_i / 262144⌉` over the live managed nodes. -/
def live_blocks (live : List (Nat × Nat)) : Nat :=
  (live.map (fun p => into_block p.2)).sum

unseal get_free_block_index

/-- Sanity: the model reproduces the repository's `used_bit_on`,
`used_bit_off` and `used_bit_check` unit tests (`used[0] = 0xfe`,
`used[1] = 0x3FFFFC`, `0xc6`, `0x3FC03C`, `0xfe`, `0xFFFFF` read as
little-endian bytes). -/
theorem free_list_unit_tests :
    bit_on (List.replicate 32 0) 1 7 = setB (List.replicate 32 0) 0 0xfe ∧
      (bit_on (bit_on (List.replicate 32 0) 1 7) 66 20).take 11 =
        [0xfe, 0, 0, 0, 0, 0, 0, 0, 0xfc, 0xff, 0x3f] ∧
      getB (bit_off (bit_on (List.replicate 32 0) 1 7) 3 3) 0 = 0xc6 ∧
      (bit_off (bit_on (bit_off (bit_on (List.replicate 32 0) 1 7) 3 3) 66 20) 70 8).take 11 =
        [0xc6, 0, 0, 0, 0, 0, 0, 0, 0x3c, 0xc0, 0x3f] ∧
      check_occupation (bit_on (List.replicate 32 0) 1 7) 1 7 = 0xfe ∧
      check_occupation (bit_on (List.replicate 32 0) 66 20) 66 20 = 0xFFFFF := by
  refine ⟨by decide, by decide, by decide, by decide, by decide, by decide⟩

/-- The C9 counterexample sequence: two 64-block (16 MiB) allocations,
release of the first, then a 65-block (16 MiB + 1) allocation.  The
`len.min(64)` truncation in `check_occupation` lets the 65-block scan
accept start 0 even though bit 64 is still held by the second node, so
`bit_on` re-marks an already set bit. -/
def opsC9 : List FLOp :=
  [.alloc 0x1000000, .alloc 0x1000000, .free 1, .alloc 0x1000001]

set_option maxRecDepth 40000 in
/-- Claim C9, counterexample: after `opsC9` the bitmap holds 128 set bits
while the live managed nodes account for 64 + 65 = 129 blocks, so the
claimed invariant fails. -/
theorem free_list_invariant_violated :
    popcount (fl_run fl_init opsC9).used = 128 ∧
      live_blocks (fl_run fl_init opsC9).live = 129 := by
  constructor <;> decide


/-! ### Bit-level characterizations of the bitmap primitives -/

theorem shiftRight3_eq (x : Nat) : x >>> 3 = x / 8 := by
  rw [Nat.shiftRight_eq_div_pow]

theorem and7_eq (x : Nat) : x &&& 7 = x % 8 := Nat.and_pow_two_sub_one_eq_mod x 3

theorem byte_bit_decomp (x : Nat) : 8 * (x >>> 3) + (x &&& 7) = x := by
  rw [shiftRight3_eq, and7_eq]
  omega

@[simp] theorem length_setFF (used : List Nat) (idx n : Nat) :
    (setFF used idx n).length = used.length := by
  induction n generalizing used idx with
  | zero => rfl
  | succ n ih => rw [setFF, ih, length_setB]

@[simp] theorem length_set00 (used : List Nat) (idx n : Nat) :
    (set00 used idx n).length = used.length := by
  induction n generalizing used idx with
  | zero => rfl
  | succ n ih => rw [set00, ih, length_setB]

theorem bitGet_setB (used : List Nat) (b v j : Nat) :
    bitGet (setB used b v) j =
      if j >>> 3 = b ∧ b < used.length then Nat.testBit v (j &&& 7)
      else bitGet used j := by
  unfold bitGet
  by_cases h1 : j >>> 3 = b
  · by_cases h2 : b < used.length
    · rw [if_pos ⟨h1, h2⟩, h1, getB_setB_eq _ _ _ h2]
    · rw [if_neg (fun hc => h2 hc.2)]
      have hle : used.length ≤ b := Nat.le_of_not_lt h2
      rw [h1]
      rw [getB_eq_zero_of_le _ _ (by simpa using hle),
        getB_eq_zero_of_le _ _ hle]
  · rw [if_neg (fun hc => h1 hc.1), getB_setB_ne _ _ _ _ (fun hc => h1 hc.symm)]

theorem testBit_255 (k : Nat) : Nat.testBit 255 k = decide (k < 8) := by
  have h : (255 : Nat) = 2 ^ 8 - 1 := by norm_num
  rw [h, Nat.testBit_two_pow_sub_one]

/-- Bit view of the `*byte = 0xff` loop: bits inside the written window (and
inside the buffer) are forced on, others are untouched. -/
theorem bitGet_setFF (used : List Nat) (idx n j : Nat) :
    bitGet (setFF used idx n) j =
      if idx ≤ j >>> 3 ∧ j >>> 3 < idx + n ∧ j >>> 3 < used.length then true
      else bitGet used j := by
  induction n generalizing used idx with
  | zero =>
    rw [setFF, if_neg (by omega)]
  | succ n ih =>
    rw [setFF, ih, length_setB, bitGet_setB]
    have hk : j &&& 7 < 8 := by rw [and7_eq]; omega
    by_cases hw : idx + 1 ≤ j >>> 3 ∧ j >>> 3 < idx + 1 + n ∧ j >>> 3 < used.length
    · rw [if_pos hw, if_pos (by omega)]
    · rw [if_neg hw]
      by_cases hb : j >>> 3 = idx ∧ idx < used.length
      · rw [if_pos hb, if_pos (by omega), testBit_255]
        exact decide_eq_true hk
      · rw [if_neg hb, if_neg (by omega)]

/-- Bit view of the `*byte = 0x0` loop. -/
theorem bitGet_set00 (used : List Nat) (idx n j : Nat) :
    bitGet (set00 used idx n) j =
      if idx ≤ j >>> 3 ∧ j >>> 3 < idx + n ∧ j >>> 3 < used.length then false
      else bitGet used j := by
  induction n generalizing used idx with
  | zero =>
    rw [set00, if_neg (by omega)]
  | succ n ih =>
    rw [set00, ih, length_setB, bitGet_setB]
    by_cases hw : idx + 1 ≤ j >>> 3 ∧ j >>> 3 < idx + 1 + n ∧ j >>> 3 < used.length
    · rw [if_pos hw, if_pos (by omega)]
    · rw [if_neg hw]
      by_cases hb : j >>> 3 = idx ∧ idx < used.length
      · rw [if_pos hb, if_pos (by omega), Nat.zero_testBit]
      · rw [if_neg hb, if_neg (by omega)]

theorem bitGet_setB_or (used : List Nat) (b m j : Nat) (hb : b < used.length) :
    (bitGet (setB used b (getB used b ||| m)) j = true ↔
      (bitGet used j = true ∨ (j >>> 3 = b ∧ Nat.testBit m (j &&& 7) = true))) := by
  rw [bitGet_setB]
  by_cases h1 : j >>> 3 = b
  · rw [if_pos ⟨h1, hb⟩, Nat.testBit_or, ← h1]
    unfold bitGet
    constructor
    · intro h
      rcases Bool.or_eq_true_iff.mp h with h | h
      · exact Or.inl h
      · exact Or.inr ⟨rfl, h⟩
    · intro h
      rcases h with h | ⟨_, h⟩ <;> simp [h]
  · rw [if_neg (fun hc => h1 hc.1)]
    constructor
    · exact Or.inl
    · intro h
      rcases h with h | ⟨hc, _⟩
      · exact h
      · exact absurd hc h1

theorem bitGet_setB_and (used : List Nat) (b m j : Nat) (hb : b < used.length) :
    (bitGet (setB used b (getB used b &&& m)) j = true ↔
      (bitGet used j = true ∧ (j >>> 3 = b → Nat.testBit m (j &&& 7) = true))) := by
  rw [bitGet_setB]
  by_cases h1 : j >>> 3 = b
  · rw [if_pos ⟨h1, hb⟩, Nat.testBit_and, ← h1]
    unfold bitGet
    constructor
    · intro h
      exact ⟨(Bool.and_eq_true_iff.mp h).1, fun _ => (Bool.and_eq_true_iff.mp h).2⟩
    · intro ⟨h, h2⟩
      simp [h, h2 rfl]
  · rw [if_neg (fun hc => h1 hc.1)]
    exact ⟨fun h => ⟨h, fun hc => absurd hc h1⟩, fun h => h.1⟩


theorem bit_mask_u8_eq (n : Nat) (h : n ≤ 8) : bit_mask_u8 n = 2 ^ n - 1 := by
  interval_cases n <;> rfl

/-- Bit view of the leading-byte mask `(bit_mask_u8 d << bit) as u8`. -/
theorem testBit_lead_mask (bit d k : Nat) (hb : bit ≤ 7) (hd : d ≤ 8 - bit) :
    (Nat.testBit ((bit_mask_u8 d <<< bit) % 256) k = true ↔ (bit ≤ k ∧ k < bit + d)) := by
  have h256 : (256 : Nat) = 2 ^ 8 := by norm_num
  rw [bit_mask_u8_eq d (by omega), h256, Nat.testBit_mod_two_pow,
    Nat.testBit_shiftLeft, Nat.testBit_two_pow_sub_one]
  simp only [Bool.and_eq_true, decide_eq_true_eq, ge_iff_le]
  omega

/-- Bit view of the trailing-byte mask `bit_mask_u8 r`. -/
theorem testBit_tail_mask (r k : Nat) (hr : r ≤ 8) :
    (Nat.testBit (bit_mask_u8 r) k = true ↔ k < r) := by
  rw [bit_mask_u8_eq r hr, Nat.testBit_two_pow_sub_one]
  simp

/-- Bit view of the complemented leading mask used by `bit_off`
(`!x` on a `u8` is `x ^^^ 0xFF`), on in-byte positions. -/
theorem testBit_lead_mask_not (bit d k : Nat) (hb : bit ≤ 7) (hd : d ≤ 8 - bit)
    (hk : k < 8) :
    (Nat.testBit ((bit_mask_u8 d <<< bit) % 256 ^^^ 0xFF) k = true ↔
      ¬(bit ≤ k ∧ k < bit + d)) := by
  rw [Nat.testBit_xor, testBit_255]
  by_cases hm : Nat.testBit ((bit_mask_u8 d <<< bit) % 256) k = true
  · rw [hm]
    simp only [decide_eq_true hk]
    exact ⟨by simp, fun hc => absurd ((testBit_lead_mask bit d k hb hd).mp hm) hc⟩
  · rw [Bool.eq_false_iff.mpr hm]
    simp only [decide_eq_true hk]
    constructor
    · intro _ hc
      exact hm ((testBit_lead_mask bit d k hb hd).mpr hc)
    · intro _
      simp
theorem testBit_tail_mask_not (r k : Nat) (hr : r ≤ 8) (hk : k < 8) :
    (Nat.testBit (bit_mask_u8 r ^^^ 0xFF) k = true ↔ ¬ k < r) := by
  rw [Nat.testBit_xor, testBit_255]
  by_cases hm : Nat.testBit (bit_mask_u8 r) k = true
  · rw [hm]
    simp only [decide_eq_true hk]
    exact ⟨by simp, fun hc => absurd ((testBit_tail_mask r k hr).mp hm) hc⟩
  · rw [Bool.eq_false_iff.mpr hm]
    simp only [decide_eq_true hk]
    constructor
    · intro _ hc
      exact hm ((testBit_tail_mask r k hr).mpr hc)
    · intro _
      simp


theorem bitGet_setFF_iff (used : List Nat) (idx n j : Nat) :
    (bitGet (setFF used idx n) j = true ↔
      (bitGet used j = true ∨
        (idx ≤ j >>> 3 ∧ j >>> 3 < idx + n ∧ j >>> 3 < used.length))) := by
  rw [bitGet_setFF]
  split_ifs with h
  · simp [h]
  · constructor
    · exact Or.inl
    · intro hc
      rcases hc with hc | hc
      · exact hc
      · exact absurd hc h

theorem bitGet_set00_iff (used : List Nat) (idx n j : Nat) :
    (bitGet (set00 used idx n) j = true ↔
      (bitGet used j = true ∧ ¬(idx ≤ j >>> 3 ∧ j >>> 3 < idx + n))) := by
  rw [bitGet_set00]
  split_ifs with h
  · simp only [false_iff]
    intro hc
    exact hc.2 ⟨h.1, h.2.1⟩
  · constructor
    · intro hb
      refine ⟨hb, fun hc => ?_⟩
      have hlb : used.length ≤ j >>> 3 := by omega
      unfold bitGet at hb
      rw [getB_eq_zero_of_le _ _ hlb, Nat.zero_testBit] at hb
      exact absurd hb (by simp)
    · exact fun h => h.1

/-- `bit_on` sets exactly the bits of `[start, start + len)` and leaves every
other bit of the 256-bit map unchanged. -/
theorem bit_on_sets (used : List Nat) (s l j : Nat) (hlen : used.length = 32)
    (hsl : s + l ≤ 255) (hj : j < 256) :
    (bitGet (bit_on used s l) j = true ↔
      (bitGet used j = true ∨ (s ≤ j ∧ j < s + l))) := by
  by_cases hl0 : l = 0
  · subst hl0
    rw [bit_on, if_pos (show bit_bounds_check s 0 from Or.inl rfl)]
    constructor
    · exact Or.inl
    · intro hc
      rcases hc with hc | hc
      · exact hc
      · omega
  · have hnb : ¬ bit_bounds_check s l := by unfold bit_bounds_check; omega
    have hs := byte_bit_decomp s
    have hjd := byte_bit_decomp j
    have hld := byte_bit_decomp (l - min l (8 - (s &&& 7)))
    have hbit7 : s &&& 7 ≤ 7 := by rw [and7_eq]; omega
    have hjk8 : j &&& 7 < 8 := by rw [and7_eq]; omega
    have hd8 : min l (8 - (s &&& 7)) ≤ 8 - (s &&& 7) := Nat.min_le_right _ _
    have hl8 : 8 * (l >>> 3) + (l &&& 7) = l := byte_bit_decomp l
    simp only [bit_on]
    rw [if_neg hnb]
    set bit := s &&& 7 with hbitd
    set bI := s >>> 3 with hbId
    set jb := j >>> 3 with hjbd
    set jk := j &&& 7 with hjkd
    set d := min l (8 - bit) with hdd
    set len := l - d with hlend
    set q := len >>> 3 with hqd
    set r := len &&& 7 with hrd
    set q0 := l >>> 3 with hq0d
    set r0 := l &&& 7 with hr0d
    have hbI32 : bI < used.length := by rw [hlen]; omega
    by_cases hbit : bit = 0
    · rw [if_neg (fun hc => hc hbit)]
      by_cases hr0 : r0 = 0
      · rw [if_neg (fun hc => hc hr0)]
        rw [bitGet_setFF_iff, hlen]
        by_cases hbg : bitGet used j = true <;> simp [hbg] <;> omega
      · rw [if_pos hr0]
        have htlen : bI + q0 < (setFF used bI q0).length := by
          rw [length_setFF, hlen]
          omega
        rw [bitGet_setB_or _ _ _ _ htlen, bitGet_setFF_iff, hlen,
          testBit_tail_mask r0 jk (by omega)]
        by_cases hbg : bitGet used j = true <;> simp [hbg] <;> omega
    · rw [if_pos hbit]
      by_cases hr0 : r = 0
      · rw [if_neg (fun hc => hc hr0)]
        rw [bitGet_setFF_iff, length_setB, hlen,
          bitGet_setB_or _ _ _ _ hbI32,
          testBit_lead_mask bit d jk hbit7 hd8]
        by_cases hbg : bitGet used j = true <;> simp [hbg] <;> omega
      · rw [if_pos hr0]
        have htlen : bI + 1 + q <
            (setFF (setB used bI
              (getB used bI ||| (bit_mask_u8 d <<< bit) % 256)) (bI + 1) q).length := by
          rw [length_setFF, length_setB, hlen]
          omega
        rw [bitGet_setB_or _ _ _ _ htlen, bitGet_setFF_iff, length_setB, hlen,
          bitGet_setB_or _ _ _ _ hbI32,
          testBit_lead_mask bit d jk hbit7 hd8,
          testBit_tail_mask r jk (by omega)]
        by_cases hbg : bitGet used j = true <;> simp [hbg] <;> omega

/-- `bit_off` clears exactly the bits of `[start, start + len)` and leaves
every other bit of the 256-bit map unchanged. -/
theorem bit_off_clears (used : List Nat) (s l j : Nat) (hlen : used.length = 32)
    (hsl : s + l ≤ 255) (hj : j < 256) :
    (bitGet (bit_off used s l) j = true ↔
      (bitGet used j = true ∧ ¬(s ≤ j ∧ j < s + l))) := by
  by_cases hl0 : l = 0
  · subst hl0
    rw [bit_off, if_pos (show bit_bounds_check s 0 from Or.inl rfl)]
    constructor
    · intro h
      exact ⟨h, by omega⟩
    · exact fun h => h.1
  · have hnb : ¬ bit_bounds_check s l := by unfold bit_bounds_check; omega
    have hs := byte_bit_decomp s
    have hjd := byte_bit_decomp j
    have hld := byte_bit_decomp (l - min l (8 - (s &&& 7)))
    have hbit7 : s &&& 7 ≤ 7 := by rw [and7_eq]; omega
    have hjk8 : j &&& 7 < 8 := by rw [and7_eq]; omega
    have hd8 : min l (8 - (s &&& 7)) ≤ 8 - (s &&& 7) := Nat.min_le_right _ _
    have hl8 : 8 * (l >>> 3) + (l &&& 7) = l := byte_bit_decomp l
    simp only [bit_off]
    rw [if_neg hnb]
    set bit := s &&& 7 with hbitd
    set bI := s >>> 3 with hbId
    set jb := j >>> 3 with hjbd
    set jk := j &&& 7 with hjkd
    set d := min l (8 - bit) with hdd
    set len := l - d with hlend
    set q := len >>> 3 with hqd
    set r := len &&& 7 with hrd
    set q0 := l >>> 3 with hq0d
    set r0 := l &&& 7 with hr0d
    have hbI32 : bI < used.length := by rw [hlen]; omega
    by_cases hbit : bit = 0
    · rw [if_neg (fun hc => hc hbit)]
      by_cases hr0 : r0 = 0
      · rw [if_neg (fun hc => hc hr0)]
        rw [bitGet_set00_iff]
        by_cases hbg : bitGet used j = true <;> simp [hbg] <;> omega
      · rw [if_pos hr0]
        have htlen : bI + q0 < (set00 used bI q0).length := by
          rw [length_set00, hlen]
          omega
        rw [bitGet_setB_and _ _ _ _ htlen, bitGet_set00_iff,
          testBit_tail_mask_not r0 jk (by omega) hjk8]
        by_cases hbg : bitGet used j = true <;> simp [hbg] <;> omega
    · rw [if_pos hbit]
      by_cases hr0 : r = 0
      · rw [if_neg (fun hc => hc hr0)]
        rw [bitGet_set00_iff,
          bitGet_setB_and _ _ _ _ hbI32,
          testBit_lead_mask_not bit d jk hbit7 hd8 hjk8]
        by_cases hbg : bitGet used j = true <;> simp [hbg] <;> omega
      · rw [if_pos hr0]
        have htlen : bI + 1 + q <
            (set00 (setB used bI
              (getB used bI &&& ((bit_mask_u8 d <<< bit) % 256 ^^^ 0xFF))) (bI + 1) q).length := by
          rw [length_set00, length_setB, hlen]
          omega
        rw [bitGet_setB_and _ _ _ _ htlen, bitGet_set00_iff,
          bitGet_setB_and _ _ _ _ hbI32,
          testBit_lead_mask_not bit d jk hbit7 hd8 hjk8,
          testBit_tail_mask_not r jk (by omega) hjk8]
        by_cases hbg : bitGet used j = true <;> simp [hbg] <;> omega


theorem occLoop_snd (used : List Nat) (n idx res diff : Nat) :
    (occLoop used idx n res diff).2 = idx + n := by
  induction n generalizing idx res diff with
  | zero => rfl
  | succ n ih =>
    rw [occLoop, ih]
    omega

theorem nat_or_eq_zero {a b : Nat} (h : a ||| b = 0) : a = 0 ∧ b = 0 := by
  constructor <;> apply Nat.eq_of_testBit_eq <;> intro i <;>
    have hc := congrArg (fun t => Nat.testBit t i) h <;>
    simp only [Nat.testBit_or, Nat.zero_testBit, Bool.or_eq_false_iff] at hc <;>
    simp [hc.1, hc.2]

theorem nat_shiftLeft_eq_zero {a k : Nat} (h : a <<< k = 0) : a = 0 := by
  rw [Nat.shiftLeft_eq] at h
  have hp : 0 < 2 ^ k := Nat.pos_pow_of_pos k (by omega)
  rcases Nat.mul_eq_zero.mp h with hc | hc
  · exact hc
  · exact absurd hc (by omega)

theorem occLoop_zero (used : List Nat) (n idx res diff : Nat)
    (h : (occLoop used idx n res diff).1 = 0) :
    res = 0 ∧ ∀ m, m < n → getB used (idx + m) = 0 := by
  induction n generalizing idx res diff with
  | zero => exact ⟨h, fun m hm => absurd hm (by omega)⟩
  | succ n ih =>
    rw [occLoop] at h
    obtain ⟨hres, hbytes⟩ := ih (idx + 1) _ 8 h
    obtain ⟨hsh, hbyte⟩ := nat_or_eq_zero hres
    refine ⟨nat_shiftLeft_eq_zero hsh, fun m hm => ?_⟩
    cases m with
    | zero => simpa using hbyte
    | succ m =>
      have := hbytes m (by omega)
      rw [show idx + (m + 1) = idx + 1 + m by omega]
      exact this

theorem and_bit_zero {a m k : Nat} (h : a &&& m = 0) (hk : Nat.testBit m k = true) :
    Nat.testBit a k = false := by
  have hc := congrArg (fun t => Nat.testBit t k) h
  simp only [Nat.testBit_and, Nat.zero_testBit, Bool.and_eq_false_iff] at hc
  rcases hc with hc | hc
  · exact hc
  · rw [hk] at hc
    exact absurd hc (by simp)

/-- When `check_occupation` reports 0, every inspected bit really is clear:
full inspection needs `len ≤ 64` (the `u64` truncation) and an in-bounds
run. -/
theorem check_occupation_zero_clear (used : List Nat) (s l j : Nat)
    (hl64 : l ≤ 64) (hsl : s + l ≤ 255)
    (hocc : check_occupation used s l = 0) (hjs : s ≤ j) (hjl : j < s + l) :
    bitGet used j = false := by
  have hl1 : 1 ≤ l := by omega
  have hnb : ¬ bit_bounds_check s l := by unfold bit_bounds_check; omega
  have hs := byte_bit_decomp s
  have hjd := byte_bit_decomp j
  have hld := byte_bit_decomp (min l 64 - min (min l 64) (8 - (s &&& 7)))
  have hbit7 : s &&& 7 ≤ 7 := by rw [and7_eq]; omega
  have hjk8 : j &&& 7 < 8 := by rw [and7_eq]; omega
  have hd8 : min (min l 64) (8 - (s &&& 7)) ≤ 8 - (s &&& 7) := Nat.min_le_right _ _
  have hl8 : 8 * (min l 64 >>> 3) + (min l 64 &&& 7) = min l 64 := byte_bit_decomp _
  simp only [check_occupation] at hocc
  rw [if_neg hnb] at hocc
  set bit := s &&& 7 with hbitd
  set bI := s >>> 3 with hbId
  set jb := j >>> 3 with hjbd
  set jk := j &&& 7 with hjkd
  set l1 := min l 64 with hl1d
  set d := min l1 (8 - bit) with hdd
  set len := l1 - d with hlend
  set q := len >>> 3 with hqd
  set r := len &&& 7 with hrd
  set q0 := l1 >>> 3 with hq0d
  set r0 := l1 &&& 7 with hr0d
  unfold bitGet
  by_cases hbit : bit = 0
  · rw [if_neg (fun hc => hc hbit)] at hocc
    by_cases hr0 : r0 = 0
    · rw [if_neg (fun hc => hc hr0)] at hocc
      obtain ⟨-, hbytes⟩ := occLoop_zero _ _ _ _ _ hocc
      have hb0 : getB used (bI + (jb - bI)) = 0 := hbytes _ (by omega)
      rw [show bI + (jb - bI) = jb by omega] at hb0
      rw [← hjbd, hb0, Nat.zero_testBit]
    · rw [if_pos hr0] at hocc
      obtain ⟨hsh, htail⟩ := nat_or_eq_zero hocc
      obtain ⟨hres, hbytes⟩ := occLoop_zero _ _ _ _ _ (nat_shiftLeft_eq_zero hsh)
      rw [occLoop_snd] at htail
      by_cases hjt : jb < bI + q0
      · have hb0 : getB used (bI + (jb - bI)) = 0 := hbytes _ (by omega)
        rw [show bI + (jb - bI) = jb by omega] at hb0
        rw [← hjbd, hb0, Nat.zero_testBit]
      · have hjb : jb = bI + q0 := by omega
        have hkr : jk < r0 := by omega
        rw [← hjbd, ← hjkd, hjb]
        exact and_bit_zero htail ((testBit_tail_mask r0 jk (by omega)).mpr hkr)
  · rw [if_pos hbit] at hocc
    by_cases hr0 : r = 0
    · rw [if_neg (fun hc => hc hr0)] at hocc
      obtain ⟨hres, hbytes⟩ := occLoop_zero _ _ _ _ _ hocc
      by_cases hjl0 : jb = bI
      · have hkd : bit ≤ jk ∧ jk < bit + d := by omega
        rw [← hjbd, ← hjkd, hjl0]
        exact and_bit_zero hres
          ((testBit_lead_mask bit d jk hbit7 hd8).mpr hkd)
      · have hb0 : getB used (bI + 1 + (jb - bI - 1)) = 0 := hbytes _ (by omega)
        rw [show bI + 1 + (jb - bI - 1) = jb by omega] at hb0
        rw [← hjbd, hb0, Nat.zero_testBit]
    · rw [if_pos hr0] at hocc
      obtain ⟨hsh, htail⟩ := nat_or_eq_zero hocc
      obtain ⟨hres, hbytes⟩ := occLoop_zero _ _ _ _ _ (nat_shiftLeft_eq_zero hsh)
      rw [occLoop_snd] at htail
      by_cases hjl0 : jb = bI
      · have hkd : bit ≤ jk ∧ jk < bit + d := by omega
        rw [← hjbd, ← hjkd, hjl0]
        exact and_bit_zero hres
          ((testBit_lead_mask bit d jk hbit7 hd8).mpr hkd)
      · by_cases hjt : jb < bI + 1 + q
        · have hb0 : getB used (bI + 1 + (jb - bI - 1)) = 0 := hbytes _ (by omega)
          rw [show bI + 1 + (jb - bI - 1) = jb by omega] at hb0
          rw [← hjbd, hb0, Nat.zero_testBit]
        · have hjb : jb = bI + 1 + q := by omega
          have hkr : jk < r := by omega
          rw [← hjbd, ← hjkd, hjb]
          exact and_bit_zero htail ((testBit_tail_mask r jk (by omega)).mpr hkr)

theorem gfbi_spec (used : List Nat) (size : Nat) :
    ∀ n start, 256 - start ≤ n →
      get_free_block_index used size start ≠ USIZE_MAX2 →
      (check_occupation used (get_free_block_index used size start) size = 0 ∧
        get_free_block_index used size start + size ≤ 255) := by
  intro n
  induction n with
  | zero =>
    intro start h0 hne
    have hb : bit_bounds_check start size := by unfold bit_bounds_check; omega
    rw [get_free_block_index, dif_pos (check_occupation_bounds used start size hb),
      if_neg (by omega : ¬ start + size ≤ 255)] at hne
    exact absurd rfl hne
  | succ n ih =>
    intro start hle hne
    rw [get_free_block_index] at hne ⊢
    by_cases hc : check_occupation used start size = 0
    · rw [dif_pos hc] at hne ⊢
      by_cases hb : start + size ≤ 255
      · rw [if_pos hb] at hne ⊢
        exact ⟨hc, hb⟩
      · rw [if_neg hb] at hne
        exact absurd rfl hne
    · rw [dif_neg hc] at hne ⊢
      have hnb : ¬ bit_bounds_check start size :=
        fun hcb => hc (check_occupation_bounds used start size hcb)
      unfold bit_bounds_check at hnb
      push_neg at hnb
      exact ih (start + size) (by omega) hne

/-- A successful (managed) allocation scan lands on a window whose
occupation test passed and which lies inside the 256-block slab. -/
theorem gfbi_ok (used : List Nat) (size : Nat)
    (h : get_free_block_index used size 0 ≠ USIZE_MAX2) :
    (check_occupation used (get_free_block_index used size 0) size = 0 ∧
      get_free_block_index used size 0 + size ≤ 255) :=
  gfbi_spec used size 256 0 (by omega) h


/-! ### The corrected occupancy invariant -/

/-- Bit `j` lies in the block run of live node `p`. -/
def inRange (p : Nat × Nat) (j : Nat) : Prop :=
  p.1 ≤ j ∧ j < p.1 + into_block p.2

instance (p : Nat × Nat) (j : Nat) : Decidable (inRange p j) := by
  unfold inRange
  infer_instance

/-- Two nodes' block runs share no bit. -/
def rdisj (a b : Nat × Nat) : Prop := ∀ j, ¬(inRange a j ∧ inRange b j)

theorem rdisj_symm {a b : Nat × Nat} (h : rdisj a b) : rdisj b a :=
  fun j hc => h j ⟨hc.2, hc.1⟩

/-- The allocator's state invariant: a 32-byte map, in-slab pairwise
disjoint node runs, and a bitmap that marks exactly the union of the live
runs. -/
def FLInv (st : FreeListState) : Prop :=
  st.used.length = 32 ∧
    (∀ p ∈ st.live, p.1 + into_block p.2 ≤ 255) ∧
    st.live.Pairwise rdisj ∧
    ∀ j, j < 256 → (bitGet st.used j = true ↔ ∃ p ∈ st.live, inRange p j)

@[simp] theorem length_bit_on (used : List Nat) (s l : Nat) :
    (bit_on used s l).length = used.length := by
  simp only [bit_on]
  split_ifs <;> simp

@[simp] theorem length_bit_off (used : List Nat) (s l : Nat) :
    (bit_off used s l).length = used.length := by
  simp only [bit_off]
  split_ifs <;> simp

theorem filter_or_length {α : Type} (l : List α) (p q : α → Bool)
    (hdisj : ∀ x ∈ l, ¬(p x = true ∧ q x = true)) :
    (l.filter (fun x => p x || q x)).length
      = (l.filter p).length + (l.filter q).length := by
  induction l with
  | nil => rfl
  | cons a t ih =>
    have ht := ih (fun x hx => hdisj x (List.mem_cons_of_mem a hx))
    by_cases hp : p a = true <;> by_cases hq : q a = true
    · exact absurd ⟨hp, hq⟩ (hdisj a (List.mem_cons_self a t))
    · rw [Bool.not_eq_true] at hq
      simp [List.filter_cons, hp, hq, ht]
      omega
    · rw [Bool.not_eq_true] at hp
      simp [List.filter_cons, hp, hq, ht]
      omega
    · rw [Bool.not_eq_true] at hp hq
      simp [List.filter_cons, hp, hq, ht]

theorem count_interval (n a c : Nat) :
    ((List.range n).filter (fun j => decide (a ≤ j ∧ j < c))).length
      = min c n - min a n := by
  induction n with
  | zero => simp
  | succ n ih =>
    rw [List.range_succ, List.filter_append, List.length_append, ih]
    by_cases h1 : a ≤ n ∧ n < c
    · simp only [List.filter_cons, List.filter_nil, decide_eq_true h1, if_pos]
      simp
      omega
    · simp only [List.filter_cons, List.filter_nil, decide_eq_false h1]
      simp
      omega

theorem count_union (live : List (Nat × Nat))
    (hr : ∀ p ∈ live, p.1 + into_block p.2 ≤ 255)
    (hd : live.Pairwise rdisj) :
    ((List.range 256).filter (fun j => decide (∃ p ∈ live, inRange p j))).length
      = live_blocks live := by
  induction live with
  | nil => simp [live_blocks]
  | cons a t ih =>
    have hra := hr a (List.mem_cons_self a t)
    have hrt : ∀ p ∈ t, p.1 + into_block p.2 ≤ 255 :=
      fun p hp => hr p (List.mem_cons_of_mem a hp)
    have hda : ∀ p ∈ t, rdisj a p := (List.pairwise_cons.mp hd).1
    have hdt : t.Pairwise rdisj := (List.pairwise_cons.mp hd).2
    have hc : ∀ x ∈ List.range 256,
        (decide (∃ p ∈ a :: t, inRange p x) : Bool)
          = (decide (a.1 ≤ x ∧ x < a.1 + into_block a.2)
              || decide (∃ p ∈ t, inRange p x)) := by
      intro x _
      rw [← Bool.decide_or, decide_eq_decide]
      constructor
      · rintro ⟨p, hp, hpx⟩
        rcases List.mem_cons.mp hp with rfl | hp
        · exact Or.inl hpx
        · exact Or.inr ⟨p, hp, hpx⟩
      · rintro (hax | ⟨p, hp, hpx⟩)
        · exact ⟨a, List.mem_cons_self a t, hax⟩
        · exact ⟨p, List.mem_cons_of_mem a hp, hpx⟩
    rw [List.filter_congr hc]
    rw [filter_or_length _ _ _ ?hdisj]
    case hdisj =>
      intro x _ ⟨h1, h2⟩
      obtain ⟨p, hp, hpx⟩ := decide_eq_true_eq.mp h2
      exact hda p hp x ⟨decide_eq_true_eq.mp h1, hpx⟩
    rw [ih hrt hdt, count_interval]
    show min (a.1 + into_block a.2) 256 - min a.1 256 + live_blocks t
      = live_blocks (a :: t)
    unfold live_blocks
    simp only [List.map_cons, List.sum_cons]
    omega

/-- Any state satisfying the invariant satisfies the claimed set-bit
count. -/
theorem popcount_matches (used : List Nat) (live : List (Nat × Nat))
    (hm : ∀ j, j < 256 → (bitGet used j = true ↔ ∃ p ∈ live, inRange p j))
    (hr : ∀ p ∈ live, p.1 + into_block p.2 ≤ 255)
    (hd : live.Pairwise rdisj) :
    popcount used = live_blocks live := by
  unfold popcount
  have hcongr : ∀ x ∈ List.range 256,
      bitGet used x = (decide (∃ p ∈ live, inRange p x) : Bool) := by
    intro x hx
    have hiff := hm x (List.mem_range.mp hx)
    by_cases hbx : bitGet used x = true
    · rw [hbx, decide_eq_true (hiff.mp hbx)]
    · rw [Bool.not_eq_true] at hbx
      rw [hbx, decide_eq_false (fun hc => by rw [hiff.mpr hc] at hbx; cases hbx)]
  rw [List.filter_congr hcongr]
  exact count_union live hr hd

theorem getB_replicate_zero (b : Nat) : getB (List.replicate 32 0) b = 0 := by
  by_cases hb : b < 32
  · rw [getB, List.getD_eq_getElem _ 0 (by simpa using hb), List.getElem_replicate]
  · exact getB_eq_zero_of_le _ _ (by simpa using Nat.le_of_not_lt hb)

theorem inv_init : FLInv fl_init := by
  refine ⟨by simp [fl_init], by simp [fl_init], by simp [fl_init], fun j _ => ?_⟩
  show bitGet (List.replicate 32 0) j = true ↔ ∃ p ∈ ([] : List (Nat × Nat)), inRange p j
  unfold bitGet
  rw [getB_replicate_zero, Nat.zero_testBit]
  simp

theorem inv_alloc (st : FreeListState) (size : Nat) (hinv : FLInv st)
    (hsize : into_block size ≤ 64) : FLInv (fl_alloc st size) := by
  obtain ⟨hlen, hr, hd, hm⟩ := hinv
  unfold fl_alloc
  by_cases hmax : get_free_block_index st.used (into_block size) 0 = USIZE_MAX2
  · rw [if_pos hmax]
    exact ⟨hlen, hr, hd, hm⟩
  · rw [if_neg hmax]
    obtain ⟨hocc, hbound⟩ := gfbi_ok st.used (into_block size) hmax
    set start := get_free_block_index st.used (into_block size) 0 with hstartd
    have hclear : ∀ j, start ≤ j → j < start + into_block size →
        bitGet st.used j = false :=
      fun j h1 h2 => check_occupation_zero_clear st.used start (into_block size) j
        hsize (by omega) hocc h1 h2
    refine ⟨by simpa using hlen, ?_, ?_, ?_⟩
    · intro p hp
      rcases List.mem_cons.mp hp with rfl | hp
      · exact hbound
      · exact hr p hp
    · rw [List.pairwise_cons]
      refine ⟨fun p hp j hc => ?_, hd⟩
      obtain ⟨⟨h1, h2⟩, hpj⟩ := hc
      have hj256 : j < 256 := by
        have := hbound
        simp only [inRange] at h2
        omega
      have hbit : bitGet st.used j = true := (hm j hj256).mpr ⟨p, hp, hpj⟩
      rw [hclear j h1 (by simpa [inRange] using h2)] at hbit
      cases hbit
    · intro j hj
      rw [bit_on_sets st.used start (into_block size) j hlen hbound hj, hm j hj]
      constructor
      · rintro (⟨p, hp, hpj⟩ | hnew)
        · exact ⟨p, List.mem_cons_of_mem _ hp, hpj⟩
        · exact ⟨(start, size), List.mem_cons_self _ _, hnew⟩
      · rintro ⟨p, hp, hpj⟩
        rcases List.mem_cons.mp hp with rfl | hp
        · exact Or.inr hpj
        · exact Or.inl ⟨p, hp, hpj⟩

theorem inv_free (st : FreeListState) (idx : Nat) (hinv : FLInv st) :
    FLInv (fl_free st idx) := by
  obtain ⟨hlen, hr, hd, hm⟩ := hinv
  unfold fl_free
  cases hget : st.live.get? idx with
  | none => exact ⟨hlen, hr, hd, hm⟩
  | some p =>
    obtain ⟨s0, sz⟩ := p
    have hdecomp : st.live = st.live.take idx ++ (s0, sz) :: st.live.drop (idx + 1) := by
      rcases List.get?_eq_some.mp hget with ⟨hl, he⟩
      have hdr := List.drop_eq_getElem_cons hl
      simp only [List.get_eq_getElem] at he
      rw [he] at hdr
      rw [← hdr, List.take_append_drop]
    have herase : st.live.eraseIdx idx
        = st.live.take idx ++ st.live.drop (idx + 1) :=
      List.eraseIdx_eq_take_drop_succ st.live idx
    set A := st.live.take idx with hAd
    set B := st.live.drop (idx + 1) with hBd
    have hmem : ∀ q ∈ A ++ B, q ∈ st.live := by
      intro q hq
      rw [hdecomp]
      rcases List.mem_append.mp hq with hq | hq
      · exact List.mem_append_left _ hq
      · exact List.mem_append_right _ (List.mem_cons_of_mem _ hq)
    have hmid : (s0, sz) ∈ st.live := by
      rw [hdecomp]
      exact List.mem_append_right _ (List.mem_cons_self _ _)
    have hdAB : (A ++ B).Pairwise rdisj := by
      rw [hdecomp] at hd
      exact hd.sublist (List.Sublist.append_left (List.sublist_cons_self _ _) A)
    have hpall : ∀ q ∈ A ++ B, rdisj (s0, sz) q := by
      rw [hdecomp] at hd
      obtain ⟨hpwA, hpwRest, hcross⟩ := List.pairwise_append.mp hd
      intro q hq
      rcases List.mem_append.mp hq with hq | hq
      · exact rdisj_symm (hcross q hq (s0, sz) (List.mem_cons_self _ _))
      · exact (List.pairwise_cons.mp hpwRest).1 q hq
    have hr0 : s0 + into_block sz ≤ 255 := hr (s0, sz) hmid
    rw [herase]
    refine ⟨by simpa using hlen, fun q hq => hr q (hmem q hq), hdAB, ?_⟩
    intro j hj
    rw [bit_off_clears st.used s0 (into_block sz) j hlen hr0 hj, hm j hj]
    constructor
    · rintro ⟨⟨p, hp, hpj⟩, hnot⟩
      rw [hdecomp] at hp
      rcases List.mem_append.mp hp with hp | hp
      · exact ⟨p, List.mem_append_left _ hp, hpj⟩
      · rcases List.mem_cons.mp hp with rfl | hp
        · exact absurd (by simpa [inRange] using hpj) hnot
        · exact ⟨p, List.mem_append_right _ hp, hpj⟩
    · rintro ⟨q, hq, hqj⟩
      refine ⟨⟨q, hmem q hq, hqj⟩, fun hc => ?_⟩
      exact hpall q hq j ⟨by simpa [inRange] using hc, hqj⟩

theorem inv_run (st : FreeListState) (ops : List FLOp) (hinv : FLInv st)
    (hsmall : ∀ s, FLOp.alloc s ∈ ops → into_block s ≤ 64) :
    FLInv (fl_run st ops) := by
  induction ops generalizing st with
  | nil => exact hinv
  | cons op rest ih =>
    rw [fl_run]
    apply ih
    · cases op with
      | alloc s => exact inv_alloc st s hinv (hsmall s (List.mem_cons_self _ _))
      | free i => exact inv_free st i hinv
    · exact fun s hs => hsmall s (List.mem_cons_of_mem _ hs)


set_option maxRecDepth 40000 in
/-- Claim C9, amended: at every point of every sequence of allocate and
release operations in which every allocate requests at most 64 blocks
(16 MiB, so that `check_occupation`'s `u64` truncation never hides an
occupied block), the number of set bits in the 256-bit occupancy bitmap
equals `Σ ⌈size_i / 262144⌉` over the live managed nodes. -/
theorem free_list_invariant_small_allocs (ops rest : List FLOp)
    (hsmall : ∀ s, FLOp.alloc s ∈ ops ++ rest → into_block s ≤ 64) :
    popcount (fl_run fl_init ops).used = live_blocks (fl_run fl_init ops).live := by
  have hinv := inv_run fl_init ops inv_init
    (fun s hs => hsmall s (List.mem_append_left _ hs))
  obtain ⟨hlen, hr, hd, hm⟩ := hinv
  exact popcount_matches _ _ hm hr hd

def opsC9W : List FLOp := [.alloc 0x1000000, .alloc 1, .free 0]

set_option maxRecDepth 40000 in
/-- The amended C9 invariant on a concrete small-allocation history: a
64-block allocation, a 1-block allocation, then release of the 1-block
node leaves 64 set bits for the one live 16 MiB node. -/
theorem free_list_invariant_small_allocs_witness :
    popcount (fl_run fl_init opsC9W).used = live_blocks (fl_run fl_init opsC9W).live ∧
      live_blocks (fl_run fl_init opsC9W).live = 64 := by
  refine ⟨free_list_invariant_small_allocs opsC9W [] ?_, by decide⟩
  intro s hs
  simp only [opsC9W, List.append_nil, List.mem_cons, List.not_mem_nil, or_false] at hs
  rcases hs with hs | hs | hs
  · cases hs
    decide
  · cases hs
    decide
  · cases hs


end CriArchive
